import Mathlib

/-!
# Volume metadata store (`metadata.go`)

A shallow embedding of `metadata.go`: the option validator `Validate` and the
file-per-volume store (`Set`, `Get`, `Delete`, `List`) of the type
`metadataDriver`, together with the properties of both.

Go values are embedded as follows.

* A Go `string` is the list of its characters, `GoString` (the text is taken
  to be valid UTF-8); a literal `"share"` is written `"share".toList`.
* A Go `map[string]string` is an association list; the order of the list is
  the order in which one `range` loop visits the map, and indexing returns the
  first binding of a key (or `""` when there is none).
* A Go `error` result is the `Except.error` case of the result.
* The standard-library calls (`path/filepath`, `os`, `io/ioutil`,
  `encoding/json`, `time`) are embedded as models of their documented behaviour
  on a Unix system; each model says what it leaves out.
-/

namespace Metadata

/-- A Go `string`: the list of its characters. -/
abbrev GoString := List Char

/-! ## Errors -/

/-- The errors the functions of `metadata.go` return, one constructor for each
`fmt.Errorf` call of the file; `notRecognized k` stands for
`"not a recognized volume driver option: %q"` formatted with the key `k`. -/
inductive Error where
  | creating (metaDir : GoString)
  | notRecognized (k : GoString)
  | cannotDelete
  | cannotSerialize
  | cannotWrite
  | cannotRead
  | cannotDeserialize
  | cannotList
  deriving DecidableEq, Repr

/-! ## The data model -/

/-- The part of Go's `time` package that the store uses of a `time.Time`: the
zero value `time.Time{}`, the RFC 3339 text that `Time.MarshalJSON` puts
between double quotes (or its failure, for a year outside 0..9999), and the
parser that `Time.UnmarshalJSON` applies to the text between the quotes.
`format_chars` records that the formatted text is made of digits, letters and
the signs `-`, `:`, `+`, `.` only. -/
structure TimeLib (Time : Type) where
  zero : Time
  format : Time → Option (List Char)
  parse : List Char → Option Time
  format_chars : ∀ t s, format t = some s → ∀ c ∈ s,
    c.isAlphanum = true ∨ c = '-' ∨ c = ':' ∨ c = '+' ∨ c = '.'

/-- VolumeOptions stores the opts passed to the driver by the docker engine. -/
structure VolumeOptions where
  Share : GoString
  FileMode : GoString
  DirMode : GoString
  UID : GoString
  GID : GoString
  NoLock : Bool
  RemotePath : GoString
  Quota : GoString
  deriving DecidableEq, Repr

/-- The persisted record `volumeMetadata`. -/
structure volumeMetadata (Time : Type) where
  CreatedAt : Time
  Account : GoString
  Options : VolumeOptions

/-- The zero value of `VolumeOptions` (`var opts VolumeOptions`). -/
def VolumeOptions.zero : VolumeOptions :=
  { Share := [], FileMode := [], DirMode := [], UID := [], GID := [],
    NoLock := false, RemotePath := [], Quota := [] }

/-- The zero value of `volumeMetadata` (`var v volumeMetadata`). -/
def volumeMetadata.zero {Time : Type} (L : TimeLib Time) : volumeMetadata Time :=
  { CreatedAt := L.zero, Account := [], Options := VolumeOptions.zero }

/-- The driver: it holds the name of the metadata directory. -/
structure metadataDriver where
  metaDir : GoString
  deriving DecidableEq, Repr

/-! ## Validate -/

/-- A Go `map[string]string`; the list order is the iteration order. -/
abbrev GoMap := List (GoString × GoString)

/-- The map index expression `meta[k]`: the value bound to `k`, or the zero
value `""` when `k` is not a key. -/
def GoMap.index : GoMap → GoString → GoString
  | [], _ => []
  | (k, v) :: rest, key => if key = k then v else GoMap.index rest key

/-- The keys of the map. -/
def GoMap.keys (m : GoMap) : List GoString := m.map Prod.fst

/-- The package variable `recognizedOptions`. -/
def recognizedOptions : List GoString :=
  ["share".toList, "filemode".toList, "dirmode".toList, "uid".toList, "gid".toList,
    "nolock".toList, "remotepath".toList, "quota".toList]

/-- The inner loop of `Validate`: scan the recognized options for `k`, setting
`found` and breaking at the first equal one. -/
def found (k : GoString) : List GoString → Bool
  | [] => false
  | opts :: rest => if k = opts then true else found k rest

/-- The outer loop of `Validate` (`for k := range meta`): the first key in
iteration order that is not found, if there is one. -/
def validateKeys : GoMap → Option GoString
  | [] => none
  | (k, _) :: rest => if found k recognizedOptions then validateKeys rest else some k

/-- The method `Validate`. -/
def metadataDriver.Validate {Time : Type} (L : TimeLib Time) (_m : metadataDriver) (meta : GoMap) :
    Except Error (volumeMetadata Time) :=
  match validateKeys meta with
  | some k => .error (.notRecognized k)
  | none =>
    let opts : VolumeOptions :=
      { VolumeOptions.zero with
        Share := meta.index "share".toList
        DirMode := meta.index "dirmode".toList
        FileMode := meta.index "filemode".toList
        GID := meta.index "gid".toList
        UID := meta.index "uid".toList
        RemotePath := meta.index "remotepath".toList
        Quota := meta.index "quota".toList }
    let opts : VolumeOptions :=
      if meta.index "nolock".toList = "true".toList then { opts with NoLock := true } else opts
    .ok { volumeMetadata.zero L with Options := opts }

/-! ## Paths (`path/filepath` on Unix) -/

/-- Split a path at every separator `/` (the pieces may be empty). -/
def splitSlash : List Char → List (List Char)
  | [] => [[]]
  | c :: cs =>
    if c = '/' then [] :: splitSlash cs
    else match splitSlash cs with
      | [] => [[c]]
      | h :: t => (c :: h) :: t

/-- Join path elements with one `/` between neighbours. -/
def joinSlash : List (List Char) → List Char
  | [] => []
  | [a] => a
  | a :: b :: rest => a ++ '/' :: joinSlash (b :: rest)

/-- One step of `filepath.Clean` on the stack `acc` of the elements kept so far
(the last one first): an empty element and `.` are dropped; `..` removes the
element before it when that is a name, is dropped at the root of a rooted path,
and is kept otherwise; any other element is kept. -/
def cleanStep (rooted : Bool) (acc : List GoString) (c : GoString) : List GoString :=
  if c = [] ∨ c = ['.'] then acc
  else if c = ['.', '.'] then
    match acc with
    | [] => if rooted then [] else [c]
    | x :: rest => if x = ['.', '.'] then c :: acc else rest
  else c :: acc

/-- The elements kept by `Clean` for the pieces `l` of a path, the last one
first. -/
def cleanStack (rooted : Bool) (l : List GoString) : List GoString :=
  l.foldl (cleanStep rooted) []

/-- Whether the path begins with the separator. -/
def isRooted : GoString → Bool
  | c :: _ => c = '/'
  | [] => false

/-- The text of a cleaned path from its elements: `/` and the joined elements
for a rooted path, `.` for an empty relative one. -/
def renderPath (rooted : Bool) (cs : List GoString) : GoString :=
  if rooted then '/' :: joinSlash cs
  else if cs = [] then ['.'] else joinSlash cs

/-- Model of `filepath.Clean`: the shortest path name equivalent to `path` by
purely lexical processing; the empty path becomes `.`. -/
def Clean (path : GoString) : GoString :=
  if path = [] then ['.']
  else renderPath (isRooted path)
    (cleanStack (isRooted path) (splitSlash path)).reverse

/-- Model of `filepath.Join` for two elements: empty elements are ignored, the
rest is joined with `/` from the first non-empty element on and cleaned; when
all elements are empty the result is the empty string. -/
def Join (a b : GoString) : GoString :=
  if a ≠ [] then Clean (a ++ '/' :: b)
  else if b ≠ [] then Clean b
  else []

/-- Model of `filepath.Base`: the last element of the path, after removing
trailing separators; `.` for the empty path and `/` for a path of separators. -/
def Base (path : GoString) : GoString :=
  if path = [] then ['.']
  else
    let p := (path.reverse.dropWhile (fun c => c = '/')).reverse
    let e := (p.reverse.takeWhile (fun c => c ≠ '/')).reverse
    if e = [] then ['/'] else e

/-- The method `path`. -/
def metadataDriver.path (m : metadataDriver) (name : GoString) : GoString :=
  Join m.metaDir name

/-- A file name proper: not empty, not `.` or `..`, and without a separator. -/
def plainName (n : GoString) : Prop :=
  n ≠ [] ∧ n ≠ ['.'] ∧ n ≠ ['.', '.'] ∧ '/' ∉ n

instance (n : GoString) : Decidable (plainName n) := by
  unfold plainName; infer_instance

/-! ## The file system (`os`, `io/ioutil`)

The file system is a finite table from absolute paths, given as the list of
their elements from the root, to entries: a regular file with its contents, or
a directory. The first binding of a path is the entry at that path; the root
directory always exists. Path names are resolved lexically, and a relative
name is resolved from the root (the working directory of the process is taken
to be `/`). The model has no symbolic links, permissions, quotas or limits on
names (a name is any string without `/`; the NUL character and long names
are not refused), so the only failures are those of the shape of the tree. -/

/-- What a path names: a regular file with its contents, or a directory. -/
inductive Entry where
  | file (data : List Char)
  | dir
  deriving DecidableEq, Repr, Inhabited

/-- The state of the file system: the table of entries. -/
structure FS where
  ents : List (List GoString × Entry)
  deriving DecidableEq, Repr

/-- The first binding of `p` in a table. -/
def lookupEnt : List (List GoString × Entry) → List GoString → Option Entry
  | [], _ => none
  | (k, e) :: rest, p => if k = p then some e else lookupEnt rest p

/-- The entry at the absolute path `p`, if any; the root is a directory. -/
def FS.kind (fs : FS) (p : List GoString) : Option Entry :=
  if p = [] then some Entry.dir else lookupEnt fs.ents p

/-- One step of path resolution on the stack of directories entered so far
(the last one first): empty elements and `.` stay, `..` goes to the parent
(the root is its own parent), a name goes down. -/
def normStep (st : List GoString) (c : GoString) : List GoString :=
  if c = [] ∨ c = ['.'] then st
  else if c = ['.', '.'] then st.tail
  else c :: st

/-- The directories entered when the pieces `l` of a path name are resolved
from the root, the last one first. -/
def normStack (l : List GoString) : List GoString :=
  l.foldl normStep []

/-- The absolute path a path name refers to; the empty name refers to
nothing. -/
def resolve (path : GoString) : Option (List GoString) :=
  if path = [] then none
  else some (normStack (splitSlash path)).reverse

/-- A table is well formed when every element of every path in it is a file
name proper. -/
def FS.wellFormed (fs : FS) : Prop :=
  ∀ e ∈ fs.ents, ∀ c ∈ e.1, plainName c

instance (fs : FS) : Decidable fs.wellFormed := by
  unfold FS.wellFormed; infer_instance

/-- Whether the entry at the absolute path `p` is a regular file. -/
def FS.isFileAt (fs : FS) (p : List GoString) : Bool :=
  match fs.kind p with
  | some (Entry.file _) => true
  | _ => false

/-- Model of `os.Lstat`, as far as `IsDir` goes: the entry at the path. -/
def Lstat (fs : FS) (path : GoString) : Option Entry :=
  match resolve path with
  | none => none
  | some p => fs.kind p

/-- Model of `ioutil.ReadFile`: the contents of the regular file at the path;
an error when there is no entry there or it is a directory. -/
def ReadFile (fs : FS) (path : GoString) : Option (List Char) :=
  match Lstat fs path with
  | some (Entry.file data) => some data
  | _ => none

/-- The table without every binding of `p`. -/
def eraseEnt (ents : List (List GoString × Entry)) (p : List GoString) :
    List (List GoString × Entry) :=
  ents.filter (fun e => e.1 ≠ p)

/-- Model of `ioutil.WriteFile`: create the regular file at the path, or
truncate the one that is there, and write `data`. It fails, changing nothing,
when the path names a directory or when its parent is not a directory. -/
def WriteFile (fs : FS) (path : GoString) (data : List Char) : Option FS :=
  match resolve path with
  | none => none
  | some p =>
    match fs.kind p with
    | some Entry.dir => none
    | _ =>
      if fs.kind p.dropLast = some Entry.dir then
        some { fs with ents := (p, Entry.file data) :: eraseEnt fs.ents p }
      else none

/-- The test `endsWithDot` of `os.RemoveAll`. -/
def endsWithDot (path : GoString) : Bool :=
  path = ['.'] ∨ path.reverse.take 2 = ['.', '/']

/-- Model of `os.RemoveAll`: remove the path and everything below it. Nothing
happens for the empty path and for a path that does not exist (also one below
a regular file), and both are no error; a path ending in `.` is refused, as
current Go releases do; the root directory itself cannot be removed, which is
an error after its contents are gone. The result is the new state and whether
an error is returned. -/
def RemoveAll (fs : FS) (path : GoString) : FS × Bool :=
  if path = [] then (fs, false)
  else if endsWithDot path then (fs, true)
  else
    match resolve path with
    | none => (fs, false)
    | some p =>
      ({ fs with ents := fs.ents.filter (fun e => ¬ p.isPrefixOf e.1) }, decide (p = []))

/-- The name under which the binding of path `k` appears in the directory `p`,
when `k` lies directly in `p`. -/
def childName (p k : List GoString) : Option GoString :=
  match k.drop p.length with
  | [n] => if k.take p.length = p then some n else none
  | _ => none

/-- Model of `readDirNames` of `path/filepath`: the names of the entries of
the directory at the path, each once, in sorted order. -/
def readDirNames (fs : FS) (path : GoString) : List GoString :=
  match resolve path with
  | none => []
  | some p => ((fs.ents.filterMap (fun e => childName p e.1)).dedup).insertionSort (· ≤ ·)

/-- The error values that travel through `filepath.Walk`: the marker
`filepath.SkipDir`, or an error proper. -/
inductive WalkErr where
  | SkipDir
  | other
  deriving DecidableEq, Repr

/-- The type `filepath.WalkFunc`, over the state `σ` of the variables the
function closes over: the path, the file info (only `IsDir`; `nil` when the
`Lstat` failed) and the incoming error give the returned error. -/
abbrev WalkFunc (σ : Type) := GoString → Option Bool → Option WalkErr → σ → Option WalkErr × σ

/-- Whether the entry is a directory (`info.IsDir()`). -/
def Entry.IsDir : Entry → Bool
  | Entry.dir => true
  | Entry.file _ => false

/-- The body of the loop of `walk` over the names of a directory, for the
entry `name`: nothing once the loop has returned an error (`acc.1`); otherwise
the entry is examined and walked by `rec`, and its error ends the loop, except
`SkipDir` from a directory. -/
def walkEntry {σ : Type} (fs : FS) (walkFn : WalkFunc σ)
    (rec : GoString → Bool → σ → Option WalkErr × σ) (path : GoString)
    (acc : Option WalkErr × σ) (name : GoString) : Option WalkErr × σ :=
  match acc.1 with
  | some _ => acc
  | none =>
    let filename := Join path name
    match Lstat fs filename with
    | none =>
      let r1 := walkFn filename none (some WalkErr.other) acc.2
      if r1.1 ≠ none ∧ r1.1 ≠ some WalkErr.SkipDir then r1 else (none, r1.2)
    | some info =>
      let r1 := rec filename info.IsDir acc.2
      if r1.1 ≠ none ∧ (info.IsDir = false ∨ r1.1 ≠ some WalkErr.SkipDir) then r1
      else (none, r1.2)

/-- Model of the function `walk` of `path/filepath`, which visits the tree
below `path` recursively. A file is handed to `walkFn`. For a directory,
`walkFn` is called on it and, unless that returns an error, on every entry in
turn; an error from an entry ends the walk, except `SkipDir` from a directory,
which only skips that directory. The recursion is bounded by `fuel`, which is
one more than the length of the longest path in the table. -/
def walk {σ : Type} (fs : FS) (walkFn : WalkFunc σ) :
    Nat → GoString → Bool → σ → Option WalkErr × σ
  | 0, _, _, st => (some WalkErr.other, st)
  | fuel + 1, path, isDir, st =>
    if isDir = false then walkFn path (some isDir) none st
    else
      let names := readDirNames fs path
      let r := walkFn path (some isDir) none st
      if r.1 ≠ none then r
      else
        names.foldl
          (walkEntry fs walkFn (fun p d s => walk fs walkFn fuel p d s) path) (none, r.2)

/-- The length of the longest path in the table. -/
def FS.depth (fs : FS) : Nat :=
  fs.ents.foldl (fun d e => max d e.1.length) 0

/-- Model of `filepath.Walk`: walk the tree rooted at `root`; when `root`
cannot be examined `walkFn` receives the error; `SkipDir` as the final result
is no error. -/
def Walk {σ : Type} (fs : FS) (root : GoString) (walkFn : WalkFunc σ) (st : σ) :
    Option WalkErr × σ :=
  let r := match Lstat fs root with
    | none => walkFn root none (some WalkErr.other) st
    | some info => walk fs walkFn (fs.depth + 1) root info.IsDir st
  if r.1 = some WalkErr.SkipDir then (none, r.2) else r

/-! ## JSON (`encoding/json`)

The encoder follows `json.Marshal` for the two struct types of this file, as
current Go releases write it (HTML-safe escapes, no white space). The decoder
follows `json.Unmarshal` into a `volumeMetadata`: the text is parsed as one
JSON value, and the members of an object are stored into the fields whose names
match them; a text that is not JSON, a value of the wrong type and a time that
does not parse all make the result an error. -/

/-- The lower-case hexadecimal digit of a number below 16. -/
def hexDigit (n : Nat) : Char :=
  if n < 10 then Char.ofNat (48 + n) else Char.ofNat (87 + n)

/-- How the encoder writes one character of a string: a two-character escape
for the quote, the backslash and five control characters, `\u00XX` for the
other control characters and for `<`, `>`, `&`, `\u202X` for the two Unicode
line separators, and the character itself otherwise. -/
def escapeChar (c : Char) : List Char :=
  if c = '"' ∨ c = '\\' then ['\\', c]
  else if c = '\x08' then ['\\', 'b']
  else if c = '\x0c' then ['\\', 'f']
  else if c = '\n' then ['\\', 'n']
  else if c = '\r' then ['\\', 'r']
  else if c = '\t' then ['\\', 't']
  else if c.toNat < 32 ∨ c = '<' ∨ c = '>' ∨ c = '&' then
    ['\\', 'u', '0', '0', hexDigit (c.toNat / 16), hexDigit (c.toNat % 16)]
  else if c = '\u2028' ∨ c = '\u2029' then
    ['\\', 'u', '2', '0', '2', hexDigit (c.toNat % 16)]
  else [c]

/-- The escaped text of a string, without the quotes around it. -/
def escapeString : GoString → List Char
  | [] => []
  | c :: cs => escapeChar c ++ escapeString cs

/-- A string as a JSON string literal. -/
def encodeString (s : GoString) : List Char :=
  '"' :: (escapeString s ++ ['"'])

/-- A boolean as a JSON literal. -/
def encodeBool (b : Bool) : List Char :=
  if b then "true".toList else "false".toList

/-- One member of an object: the quoted name of the field, a colon, and the
encoded value. -/
def encodeField (name : GoString) (value : List Char) : List Char :=
  encodeString name ++ ':' :: value

/-- An object: the members between braces, separated by commas. -/
def encodeObject : List (List Char) → List Char
  | [] => ['\x7b', '\x7d']
  | f :: fs => '\x7b' :: (f ++ fs.foldr (fun g acc => ',' :: (g ++ acc)) ['\x7d'])

/-- The encoding of a `VolumeOptions`: the fields in their order of
declaration, under the names of their `json` tags. -/
def encodeOptions (o : VolumeOptions) : List Char :=
  encodeObject
    [encodeField "share".toList (encodeString o.Share),
     encodeField "filemode".toList (encodeString o.FileMode),
     encodeField "dirmode".toList (encodeString o.DirMode),
     encodeField "uid".toList (encodeString o.UID),
     encodeField "gid".toList (encodeString o.GID),
     encodeField "nolock".toList (encodeBool o.NoLock),
     encodeField "remotepath".toList (encodeString o.RemotePath),
     encodeField "quota".toList (encodeString o.Quota)]

/-- Model of `Time.MarshalJSON`: the formatted time between double quotes. -/
def timeMarshalJSON {Time : Type} (L : TimeLib Time) (t : Time) : Option (List Char) :=
  (L.format t).map (fun s => '"' :: (s ++ ['"']))

/-- Model of `json.Marshal` on a `volumeMetadata`; it fails only when the
time cannot be formatted. -/
def Marshal {Time : Type} (L : TimeLib Time) (v : volumeMetadata Time) : Option (List Char) :=
  match timeMarshalJSON L v.CreatedAt with
  | none => none
  | some t =>
    some (encodeObject
      [encodeField "created_at".toList t,
       encodeField "account".toList (encodeString v.Account),
       encodeField "options".toList (encodeOptions v.Options)])

/-- A parsed JSON value. A string keeps, next to its value, the text that
stood between its quotes; a number keeps its text. -/
inductive JSON where
  | null
  | bool (b : Bool)
  | number (raw : List Char)
  | string (raw : List Char) (s : GoString)
  | array (elems : List JSON)
  | object (members : List (GoString × JSON))

/-- JSON white space. -/
def isWS (c : Char) : Bool :=
  c = ' ' ∨ c = '\t' ∨ c = '\r' ∨ c = '\n'

/-- Drop leading white space. -/
def skipWS : List Char → List Char
  | [] => []
  | c :: cs => if isWS c then skipWS cs else c :: cs

/-- The value of a hexadecimal digit. -/
def hexVal (c : Char) : Option Nat :=
  if '0' ≤ c ∧ c ≤ '9' then some (c.toNat - 48)
  else if 'a' ≤ c ∧ c ≤ 'f' then some (c.toNat - 87)
  else if 'A' ≤ c ∧ c ≤ 'F' then some (c.toNat - 55)
  else none

/-- The character a two-character escape stands for. -/
def unescape (e : Char) : Option Char :=
  if e = '"' ∨ e = '\\' ∨ e = '/' then some e
  else if e = 'b' then some '\x08'
  else if e = 'f' then some '\x0c'
  else if e = 'n' then some '\n'
  else if e = 'r' then some '\r'
  else if e = 't' then some '\t'
  else none

/-- Where the reader of a string literal stands: in plain text; after a
backslash; in a `\u` escape with `k` digits read and value `v` so far; or
after the escape of a high surrogate `h`, which waits for its low surrogate
(`hi` carries it through the next escape). -/
inductive StrState where
  | plain
  | esc (hi : Option Nat)
  | hex (hi : Option Nat) (k : Nat) (v : Nat)
  | high (h : Nat)

/-- The Unicode replacement character. -/
def replacementChar : Char := '\ufffd'

/-- What a completed `\u` escape of value `v` produces and the state after it.
A low surrogate after a pending high one gives their code point; a high
surrogate waits; a lone surrogate gives the replacement character. -/
def completeEscape (hi : Option Nat) (v : Nat) : List Char × StrState :=
  let isHigh := 0xD800 ≤ v ∧ v < 0xDC00
  let isLow := 0xDC00 ≤ v ∧ v < 0xE000
  match hi with
  | some h =>
    if isLow then ([Char.ofNat (0x10000 + (h - 0xD800) * 0x400 + (v - 0xDC00))], StrState.plain)
    else if isHigh then ([replacementChar], StrState.high v)
    else ([replacementChar, Char.ofNat v], StrState.plain)
  | none =>
    if isHigh then ([], StrState.high v)
    else if isLow then ([replacementChar], StrState.plain)
    else ([Char.ofNat v], StrState.plain)

/-- Put a consumed character and its decoded text in front of the result for
the rest of the literal. -/
def pushChar (c : Char) (d : List Char) :
    Option (List Char × GoString × List Char) → Option (List Char × GoString × List Char)
  | none => none
  | some r => some (c :: r.1, d ++ r.2.1, r.2.2)

/-- The replacement character owed for a high surrogate that found no
partner. -/
def pendingHigh : Option Nat → List Char
  | none => []
  | some _ => [replacementChar]

/-- Read a string literal from just after its opening quote: the text up to
the closing quote, the string it denotes, and what follows the closing quote.
Control characters and unknown escapes are refused. -/
def scanString : StrState → List Char → Option (List Char × GoString × List Char)
  | _, [] => none
  | StrState.plain, c :: cs =>
    if c = '"' then some ([], [], cs)
    else if c = '\\' then pushChar c [] (scanString (StrState.esc none) cs)
    else if c.toNat < 32 then none
    else pushChar c [c] (scanString StrState.plain cs)
  | StrState.high h, c :: cs =>
    if c = '"' then some ([], [replacementChar], cs)
    else if c = '\\' then pushChar c [] (scanString (StrState.esc (some h)) cs)
    else if c.toNat < 32 then none
    else pushChar c [replacementChar, c] (scanString StrState.plain cs)
  | StrState.esc hi, c :: cs =>
    if c = 'u' then pushChar c [] (scanString (StrState.hex hi 0 0) cs)
    else match unescape c with
      | none => none
      | some d => pushChar c (pendingHigh hi ++ [d]) (scanString StrState.plain cs)
  | StrState.hex hi k v, c :: cs =>
    match hexVal c with
    | none => none
    | some x =>
      if k < 3 then pushChar c [] (scanString (StrState.hex hi (k + 1) (16 * v + x)) cs)
      else pushChar c (completeEscape hi (16 * v + x)).1
        (scanString (completeEscape hi (16 * v + x)).2 cs)

/-- The longest run of decimal digits at the front, and the rest. -/
def spanDigits : List Char → List Char × List Char
  | [] => ([], [])
  | c :: cs => if c.isDigit then ((spanDigits cs).1.cons c, (spanDigits cs).2) else ([], c :: cs)

/-- Read a JSON number: an optional minus sign, the integer part (`0`, or
digits not starting with `0`), an optional fraction and an optional exponent.
The result is the text of the number and the rest. -/
def scanNumber (cs : List Char) : Option (List Char × List Char) :=
  let sign := if cs.head? = some '-' then ['-'] else []
  let cs1 := cs.drop sign.length
  let int := spanDigits cs1
  if int.1 = [] ∨ (int.1.head? = some '0' ∧ int.1.length ≠ 1) then
    -- a leading zero ends the integer part
    if int.1.head? = some '0' then
      some (sign ++ ['0'], cs1.drop 1) else none
  else
    let frac :=
      match int.2 with
      | c :: rest =>
        if c = '.' ∧ (spanDigits rest).1 ≠ [] then ('.' :: (spanDigits rest).1, (spanDigits rest).2)
        else ([], int.2)
      | [] => ([], [])
    let exp :=
      match frac.2 with
      | e :: rest =>
        if e = 'e' ∨ e = 'E' then
          let sg := if rest.head? = some '+' ∨ rest.head? = some '-' then rest.take 1 else []
          let ds := spanDigits (rest.drop sg.length)
          if ds.1 ≠ [] then (e :: (sg ++ ds.1), ds.2) else ([], frac.2)
        else ([], frac.2)
      | [] => ([], [])
    some (sign ++ int.1 ++ frac.1 ++ exp.1, exp.2)

/-- Read one of the literals `null`, `true`, `false`. -/
def parseLit (lit : List Char) (v : JSON) (cs : List Char) : Option (JSON × List Char) :=
  if lit.isPrefixOf cs then some (v, cs.drop lit.length) else none

/-- Read the elements of a non-empty array, from its first element to the
closing bracket; `pv` reads one value. -/
def parseElems (pv : List Char → Option (JSON × List Char)) :
    Nat → List Char → Option (List JSON × List Char)
  | 0, _ => none
  | fuel + 1, cs =>
    match pv cs with
    | none => none
    | some (v, rest) =>
      match skipWS rest with
      | [] => none
      | c :: rest1 =>
        if c = ']' then some ([v], rest1)
        else if c = ',' then
          match parseElems pv fuel (skipWS rest1) with
          | none => none
          | some (vs, rest2) => some (v :: vs, rest2)
        else none

/-- Read the members of a non-empty object, from the quote of its first name
to the closing brace; `pv` reads one value. -/
def parseMembers (pv : List Char → Option (JSON × List Char)) :
    Nat → List Char → Option (List (GoString × JSON) × List Char)
  | 0, _ => none
  | fuel + 1, cs =>
    match cs with
    | [] => none
    | q :: cs1 =>
      if q ≠ '"' then none
      else
        match scanString StrState.plain cs1 with
        | none => none
        | some (_, name, rest) =>
          match skipWS rest with
          | [] => none
          | colon :: rest1 =>
            if colon ≠ ':' then none
            else
              match pv (skipWS rest1) with
              | none => none
              | some (v, rest2) =>
                match skipWS rest2 with
                | [] => none
                | c :: rest3 =>
                  if c = '\x7d' then some ([(name, v)], rest3)
                  else if c = ',' then
                    match parseMembers pv fuel (skipWS rest3) with
                    | none => none
                    | some (ms, rest4) => some ((name, v) :: ms, rest4)
                  else none

/-- Read one JSON value at the front of the text; `fuel` bounds the nesting
and the number of members. -/
def parseValue : Nat → List Char → Option (JSON × List Char)
  | 0, _ => none
  | fuel + 1, cs =>
    match cs with
    | [] => none
    | c :: rest =>
      if c = '"' then
        match scanString StrState.plain rest with
        | none => none
        | some (raw, s, rest1) => some (JSON.string raw s, rest1)
      else if c = '\x7b' then
        match skipWS rest with
        | [] => none
        | d :: rest1 =>
          if d = '\x7d' then some (JSON.object [], rest1)
          else
            match parseMembers (parseValue fuel) fuel (d :: rest1) with
            | none => none
            | some (ms, rest2) => some (JSON.object ms, rest2)
      else if c = '[' then
        match skipWS rest with
        | [] => none
        | d :: rest1 =>
          if d = ']' then some (JSON.array [], rest1)
          else
            match parseElems (parseValue fuel) fuel (d :: rest1) with
            | none => none
            | some (vs, rest2) => some (JSON.array vs, rest2)
      else if c = 'n' then parseLit "null".toList JSON.null cs
      else if c = 't' then parseLit "true".toList (JSON.bool true) cs
      else if c = 'f' then parseLit "false".toList (JSON.bool false) cs
      else
        match scanNumber cs with
        | none => none
        | some (raw, rest1) => some (JSON.number raw, rest1)

/-- Parse a whole text as one JSON value with white space around it. -/
def parseJSON (data : List Char) : Option JSON :=
  match parseValue (data.length + 1) (skipWS data) with
  | none => none
  | some (v, rest) => if skipWS rest = [] then some v else none

/-- The case folding under which the decoder compares a member name with a
field name: letters without regard to case, with the two other characters
that fold to an ASCII letter (the long s and the Kelvin sign). -/
def foldChar (c : Char) : Char :=
  if 'a' ≤ c ∧ c ≤ 'z' then Char.ofNat (c.toNat - 32)
  else if c = '\u017f' then 'S'
  else if c = '\u212a' then 'K'
  else c

/-- The folded form of a name. -/
def foldName (s : GoString) : GoString := s.map foldChar

/-- Store a JSON value into a `string` field: a string sets it, `null` leaves
it as it is, any other value is a type error. -/
def decodeString (cur : GoString) : JSON → Option GoString
  | JSON.string _ s => some s
  | JSON.null => some cur
  | _ => none

/-- Store a JSON value into a `bool` field. -/
def decodeBool (cur : Bool) : JSON → Option Bool
  | JSON.bool b => some b
  | JSON.null => some cur
  | _ => none

/-- Model of `Time.UnmarshalJSON`: `null` leaves the time as it is, a string
literal is parsed from the text between its quotes, anything else fails. -/
def timeUnmarshalJSON {Time : Type} (L : TimeLib Time) (cur : Time) : JSON → Option Time
  | JSON.string raw _ => L.parse raw
  | JSON.null => some cur
  | _ => none

/-- Store the member `name: v` of an object into the field of
`VolumeOptions` with that name, if there is one. -/
def setOptionsField (o : VolumeOptions) (name : GoString) (v : JSON) : Option VolumeOptions :=
  let k := foldName name
  if k = foldName "share".toList then
    (decodeString o.Share v).map (fun x => { o with Share := x })
  else if k = foldName "filemode".toList then
    (decodeString o.FileMode v).map (fun x => { o with FileMode := x })
  else if k = foldName "dirmode".toList then
    (decodeString o.DirMode v).map (fun x => { o with DirMode := x })
  else if k = foldName "uid".toList then
    (decodeString o.UID v).map (fun x => { o with UID := x })
  else if k = foldName "gid".toList then
    (decodeString o.GID v).map (fun x => { o with GID := x })
  else if k = foldName "nolock".toList then
    (decodeBool o.NoLock v).map (fun x => { o with NoLock := x })
  else if k = foldName "remotepath".toList then
    (decodeString o.RemotePath v).map (fun x => { o with RemotePath := x })
  else if k = foldName "quota".toList then
    (decodeString o.Quota v).map (fun x => { o with Quota := x })
  else some o

/-- Store the members of an object one after the other. -/
def storeMembers {α : Type} (set : α → GoString → JSON → Option α) :
    α → List (GoString × JSON) → Option α
  | a, [] => some a
  | a, (name, v) :: rest =>
    match set a name v with
    | none => none
    | some b => storeMembers set b rest

/-- Store a JSON value into a `VolumeOptions`: an object member by member,
`null` leaving it as it is, any other value being a type error. -/
def decodeOptions (cur : VolumeOptions) : JSON → Option VolumeOptions
  | JSON.object ms => storeMembers setOptionsField cur ms
  | JSON.null => some cur
  | _ => none

/-- Store the member `name: v` of an object into the field of
`volumeMetadata` with that name, if there is one. -/
def setMetadataField {Time : Type} (L : TimeLib Time) (m : volumeMetadata Time)
    (name : GoString) (v : JSON) : Option (volumeMetadata Time) :=
  let k := foldName name
  if k = foldName "created_at".toList then
    (timeUnmarshalJSON L m.CreatedAt v).map (fun x => { m with CreatedAt := x })
  else if k = foldName "account".toList then
    (decodeString m.Account v).map (fun x => { m with Account := x })
  else if k = foldName "options".toList then
    (decodeOptions m.Options v).map (fun x => { m with Options := x })
  else some m

/-- Store a JSON value into a `volumeMetadata`. -/
def decodeMetadata {Time : Type} (L : TimeLib Time) (cur : volumeMetadata Time) :
    JSON → Option (volumeMetadata Time)
  | JSON.object ms => storeMembers (setMetadataField L) cur ms
  | JSON.null => some cur
  | _ => none

/-- Model of `json.Unmarshal(b, &v)` for a `volumeMetadata` `v`: the result
is the new `v`, or an error for a text that is not JSON or does not fit the
type. -/
def Unmarshal {Time : Type} (L : TimeLib Time) (b : List Char) (v : volumeMetadata Time) :
    Option (volumeMetadata Time) :=
  match parseJSON b with
  | none => none
  | some j => decodeMetadata L v j

/-! ## The store -/

/-- The method `Delete`: the returned error, if any, and the new state. -/
def metadataDriver.Delete (m : metadataDriver) (name : GoString) (fs : FS) : Option Error × FS :=
  let r := RemoveAll fs (m.path name)
  if r.2 then (some Error.cannotDelete, r.1) else (none, r.1)

/-- The method `Set`: the returned error, if any, and the new state. -/
def metadataDriver.Set {Time : Type} (L : TimeLib Time) (m : metadataDriver) (name : GoString)
    (meta : volumeMetadata Time) (fs : FS) : Option Error × FS :=
  match Marshal L meta with
  | none => (some Error.cannotSerialize, fs)
  | some b =>
    match WriteFile fs (m.path name) b with
    | none => (some Error.cannotWrite, fs)
    | some fs1 => (none, fs1)

/-- The method `Get`. -/
def metadataDriver.Get {Time : Type} (L : TimeLib Time) (m : metadataDriver) (name : GoString) (fs : FS) :
    Except Error (volumeMetadata Time) :=
  match ReadFile fs (m.path name) with
  | none => .error Error.cannotRead
  | some b =>
    match Unmarshal L b (volumeMetadata.zero L) with
    | none => .error Error.cannotDeserialize
    | some v => .ok v

/-- The function literal that `List` hands to `filepath.Walk`; its state is
the slice `volumes`. -/
def listWalkFn (m : metadataDriver) : WalkFunc (List GoString) :=
  fun path info inErr volumes =>
    if inErr ≠ none then (inErr, volumes)
    else if path = m.metaDir then (none, volumes)
    else if info = some true then (some WalkErr.SkipDir, volumes)
    else (none, volumes ++ [Base path])

/-- The method `List`. -/
def metadataDriver.List (m : metadataDriver) (fs : FS) : Except Error (List GoString) :=
  let r := Walk fs m.metaDir (listWalkFn m) []
  if r.1 ≠ none then .error Error.cannotList else .ok r.2

/-! ## A small instance of the time library, for examples

Times are the seconds of one day; the text is the number of seconds in
decimal, six digits wide at most. -/

/-- Decimal digits of a number, least significant first; `fuel` bounds the
number of digits. -/
def digitsRev : Nat → Nat → List Char
  | 0, _ => []
  | fuel + 1, n => Char.ofNat (48 + n % 10) :: (if n < 10 then [] else digitsRev fuel (n / 10))

/-- The number a list of decimal digits denotes, if they are digits. -/
def readDigits : Nat → List Char → Option Nat
  | acc, [] => some acc
  | acc, c :: cs => if c.isDigit then readDigits (10 * acc + (c.toNat - 48)) cs else none

/-- The example time library. -/
def dayTime : TimeLib (Fin 86400) where
  zero := 0
  format t := some (digitsRev 6 t.val).reverse
  parse s := match readDigits 0 s with
    | some n => if h : n < 86400 ∧ s ≠ [] then some ⟨n, h.1⟩ else none
    | none => none
  format_chars := by
    intro t s h c hc
    left
    simp only [Option.some.injEq] at h
    subst h
    have key : ∀ fuel n, ∀ c ∈ digitsRev fuel n, c.isAlphanum = true := by
      intro fuel
      induction fuel with
      | zero => intro n c hc; simp [digitsRev] at hc
      | succ k ih =>
        intro n c hc
        simp only [digitsRev, List.mem_cons] at hc
        rcases hc with h | h
        · subst h
          have h10 : n % 10 < 10 := Nat.mod_lt _ (by decide)
          generalize n % 10 = d at h10
          interval_cases d <;> decide
        · split at h
          · simp at h
          · exact ih _ _ h
    exact key _ _ c (by simpa using hc)

/-! ## Notions used in the statements -/

/-- The reference record of `Validate`, written from the specification: every
string option is the raw value of its key copied unchanged, `noLock` holds
exactly when the raw value of `nolock` is `true`, and the account and the
creation time are left at their zero values. -/
def referenceRecord {Time : Type} (L : TimeLib Time) (meta : GoMap) : volumeMetadata Time :=
  { CreatedAt := L.zero
    Account := []
    Options :=
      { Share := meta.index "share".toList
        FileMode := meta.index "filemode".toList
        DirMode := meta.index "dirmode".toList
        UID := meta.index "uid".toList
        GID := meta.index "gid".toList
        NoLock := decide (meta.index "nolock".toList = "true".toList)
        RemotePath := meta.index "remotepath".toList
        Quota := meta.index "quota".toList } }

/-- Whether the place that `path1` names is the place that `path2` names or a
directory above it. -/
def reaches (path1 path2 : GoString) : Bool :=
  match resolve path1, resolve path2 with
  | some p1, some p2 => p1.isPrefixOf p2
  | _, _ => false

/-- A call that changes the store. -/
inductive Op (Time : Type) where
  | set (name : GoString) (meta : volumeMetadata Time)
  | delete (name : GoString)

/-- The name a call is given. -/
def Op.name {Time : Type} : Op Time → GoString
  | Op.set name _ => name
  | Op.delete name => name

/-- Make the call: the returned error, if any, and the new state. -/
def Op.run {Time : Type} (L : TimeLib Time) (m : metadataDriver) :
    Op Time → FS → Option Error × FS
  | Op.set name meta, fs => m.Set L name meta fs
  | Op.delete name, fs => m.Delete name fs

/-- The state after a sequence of calls that all return without error; `none`
when one of them returns an error. -/
def runOps {Time : Type} (L : TimeLib Time) (m : metadataDriver) :
    List (Op Time) → FS → Option FS
  | [], fs => some fs
  | op :: rest, fs =>
    match op.run L m fs with
    | (none, fs1) => runOps L m rest fs1
    | (some _, _) => none

/-- The name `x` was set in the sequence and not deleted afterwards. -/
def setAndKept {Time : Type} (ops : List (Op Time)) (x : GoString) : Prop :=
  ∃ pre meta post, ops = pre ++ Op.set x meta :: post ∧ ∀ op ∈ post, op ≠ Op.delete x

/-- A call of one of the five methods. -/
inductive Call (Time : Type) where
  | validate (meta : GoMap)
  | set (name : GoString) (meta : volumeMetadata Time)
  | get (name : GoString)
  | delete (name : GoString)
  | list

/-- The state after a call, whatever it returns; `Validate`, `Get` and `List`
leave the state alone. -/
def Call.run {Time : Type} (L : TimeLib Time) (m : metadataDriver) : Call Time → FS → FS
  | Call.validate _, fs => fs
  | Call.set name meta, fs => (m.Set L name meta fs).2
  | Call.get _, fs => fs
  | Call.delete name, fs => (m.Delete name fs).2
  | Call.list, fs => fs

/-- A driver on the directory `/meta`. -/
def exampleDriver : metadataDriver := { metaDir := "/meta".toList }

/-- A file system that holds the empty directory `/meta` and nothing else. -/
def exampleFS : FS := { ents := [(["meta".toList], Entry.dir)] }

/-- A record with characters that the encoder escapes. -/
def exampleRecord : volumeMetadata (Fin 86400) :=
  { CreatedAt := ⟨4242, by decide⟩
    Account := "a<\"b\">\n".toList
    Options := { VolumeOptions.zero with Share := "s/h".toList, NoLock := true } }

/-- Another record. -/
def otherRecord : volumeMetadata (Fin 86400) :=
  { CreatedAt := ⟨7, by decide⟩
    Account := "other".toList
    Options := { VolumeOptions.zero with UID := "1000".toList, Quota := "5".toList } }

/-- A base directory `/meta` with two files, and a subdirectory that holds a
file of its own. -/
def exampleTree : FS :=
  { ents :=
      [(["meta".toList], Entry.dir),
       (["meta".toList, "b".toList], Entry.file "1".toList),
       (["meta".toList, "sub".toList], Entry.dir),
       (["meta".toList, "sub".toList, "inner".toList], Entry.file "2".toList),
       (["meta".toList, "a".toList], Entry.file "3".toList)] }

/-! # Properties -/

set_option maxRecDepth 100000

/-! ## Validate -/

theorem found_iff (k : GoString) (l : List GoString) : found k l = true ↔ k ∈ l := by
  induction l with
  | nil => simp [found]
  | cons a t ih =>
    by_cases h : k = a
    · simp [found, h]
    · simp [found, h, ih]

theorem validateKeys_none (meta : GoMap) :
    validateKeys meta = none ↔ ∀ k ∈ meta.keys, k ∈ recognizedOptions := by
  induction meta with
  | nil => simp [validateKeys, GoMap.keys]
  | cons a t ih =>
    obtain ⟨k, v⟩ := a
    by_cases h : found k recognizedOptions = true
    · have hk := (found_iff _ _).1 h
      simp only [validateKeys, h, if_true, ih]
      simp [GoMap.keys, hk]
    · have hk : k ∉ recognizedOptions := fun hk => h ((found_iff _ _).2 hk)
      simp only [validateKeys, h]
      simp [GoMap.keys, hk]

theorem validateKeys_some (meta : GoMap) (k : GoString) (h : validateKeys meta = some k) :
    k ∈ meta.keys ∧ k ∉ recognizedOptions := by
  induction meta with
  | nil => simp [validateKeys] at h
  | cons a t ih =>
    obtain ⟨k1, v⟩ := a
    by_cases hf : found k1 recognizedOptions = true
    · simp only [validateKeys, hf, if_true] at h
      have := ih h
      exact ⟨by simp [GoMap.keys] at this ⊢; exact Or.inr this.1, this.2⟩
    · simp only [validateKeys, hf] at h
      simp only [Bool.false_eq_true, if_false, Option.some.injEq] at h
      subst h
      exact ⟨by simp [GoMap.keys], fun hk => hf ((found_iff _ _).2 hk)⟩

theorem index_absent (meta : GoMap) (k : GoString) (h : k ∉ meta.keys) : meta.index k = [] := by
  induction meta with
  | nil => rfl
  | cons a t ih =>
    obtain ⟨k1, v⟩ := a
    simp only [GoMap.keys, List.map_cons, List.mem_cons, not_or] at h
    simp only [GoMap.index, h.1, if_false]
    exact ih h.2

theorem Validate_ok_eq {Time : Type} (L : TimeLib Time) (m : metadataDriver) (meta : GoMap)
    (h : validateKeys meta = none) : m.Validate L meta = .ok (referenceRecord L meta) := by
  unfold metadataDriver.Validate referenceRecord
  simp only [h]
  split_ifs with hn <;> simp [volumeMetadata.zero, VolumeOptions.zero] <;> exact hn

theorem Validate_ok_iff {Time : Type} (L : TimeLib Time) (m : metadataDriver) (meta : GoMap)
    (v : volumeMetadata Time) :
    m.Validate L meta = .ok v ↔ validateKeys meta = none ∧ v = referenceRecord L meta := by
  constructor
  · intro h
    cases hk : validateKeys meta with
    | none => rw [Validate_ok_eq L m meta hk] at h; exact ⟨rfl, by injection h with h; exact h.symm⟩
    | some k => simp [metadataDriver.Validate, hk] at h
  · rintro ⟨hk, rfl⟩; exact Validate_ok_eq L m meta hk

/-- C1. A map with a key outside the recognized set is rejected, and the key
named in the error is a key of the map that is not recognized. -/
theorem Validate_unrecognized {Time : Type} (L : TimeLib Time) (m : metadataDriver)
    (meta : GoMap) (h : ∃ k ∈ meta.keys, k ∉ recognizedOptions) :
    ∃ k, m.Validate L meta = .error (Error.notRecognized k) ∧
      k ∈ meta.keys ∧ k ∉ recognizedOptions := by
  cases hk : validateKeys meta with
  | none =>
    obtain ⟨k, hk1, hk2⟩ := h
    exact absurd ((validateKeys_none meta).1 hk k hk1) hk2
  | some k =>
    exact ⟨k, by simp [metadataDriver.Validate, hk], validateKeys_some meta k hk⟩

theorem Validate_unrecognized_witness :
    (∃ k ∈ GoMap.keys [("share".toList, "x".toList), ("Share".toList, "y".toList)],
        k ∉ recognizedOptions) ∧
    ∃ k, exampleDriver.Validate dayTime
        [("share".toList, "x".toList), ("Share".toList, "y".toList)]
        = .error (Error.notRecognized k) ∧
      k ∈ GoMap.keys [("share".toList, "x".toList), ("Share".toList, "y".toList)] ∧
      k ∉ recognizedOptions :=
  ⟨⟨"Share".toList, by decide, by decide⟩,
   Validate_unrecognized dayTime _ _ ⟨"Share".toList, by decide, by decide⟩⟩

/-- C2. A map all of whose keys are recognized is accepted, and the field of
every recognized key that is absent has the zero value of its type. -/
theorem Validate_recognized {Time : Type} (L : TimeLib Time) (m : metadataDriver)
    (meta : GoMap) (h : ∀ k ∈ meta.keys, k ∈ recognizedOptions) :
    ∃ v, m.Validate L meta = .ok v ∧
      ("share".toList ∉ meta.keys → v.Options.Share = []) ∧
      ("filemode".toList ∉ meta.keys → v.Options.FileMode = []) ∧
      ("dirmode".toList ∉ meta.keys → v.Options.DirMode = []) ∧
      ("uid".toList ∉ meta.keys → v.Options.UID = []) ∧
      ("gid".toList ∉ meta.keys → v.Options.GID = []) ∧
      ("nolock".toList ∉ meta.keys → v.Options.NoLock = false) ∧
      ("remotepath".toList ∉ meta.keys → v.Options.RemotePath = []) ∧
      ("quota".toList ∉ meta.keys → v.Options.Quota = []) := by
  refine ⟨referenceRecord L meta, Validate_ok_eq L m meta ((validateKeys_none meta).2 h),
    ?_, ?_, ?_, ?_, ?_, ?_, ?_, ?_⟩
  all_goals intro ha
  all_goals simp only [referenceRecord, index_absent meta _ ha]
  decide

theorem Validate_recognized_witness :
    (∀ k ∈ GoMap.keys [("share".toList, "x".toList), ("nolock".toList, "true".toList)],
        k ∈ recognizedOptions) ∧
    ∃ v, exampleDriver.Validate dayTime
        [("share".toList, "x".toList), ("nolock".toList, "true".toList)] = .ok v ∧
      ("share".toList ∉ GoMap.keys [("share".toList, "x".toList), ("nolock".toList, "true".toList)]
        → v.Options.Share = []) ∧
      ("filemode".toList ∉ GoMap.keys [("share".toList, "x".toList), ("nolock".toList, "true".toList)]
        → v.Options.FileMode = []) ∧
      ("dirmode".toList ∉ GoMap.keys [("share".toList, "x".toList), ("nolock".toList, "true".toList)]
        → v.Options.DirMode = []) ∧
      ("uid".toList ∉ GoMap.keys [("share".toList, "x".toList), ("nolock".toList, "true".toList)]
        → v.Options.UID = []) ∧
      ("gid".toList ∉ GoMap.keys [("share".toList, "x".toList), ("nolock".toList, "true".toList)]
        → v.Options.GID = []) ∧
      ("nolock".toList ∉ GoMap.keys [("share".toList, "x".toList), ("nolock".toList, "true".toList)]
        → v.Options.NoLock = false) ∧
      ("remotepath".toList ∉ GoMap.keys [("share".toList, "x".toList), ("nolock".toList, "true".toList)]
        → v.Options.RemotePath = []) ∧
      ("quota".toList ∉ GoMap.keys [("share".toList, "x".toList), ("nolock".toList, "true".toList)]
        → v.Options.Quota = []) :=
  ⟨by decide, Validate_recognized dayTime _ _ (by decide)⟩

theorem index_of_mem (meta : GoMap) (k v : GoString) (hnd : meta.keys.Nodup)
    (h : (k, v) ∈ meta) : meta.index k = v := by
  induction meta with
  | nil => simp at h
  | cons a t ih =>
    obtain ⟨k1, v1⟩ := a
    simp only [GoMap.keys, List.map_cons, List.nodup_cons, List.mem_map, Prod.exists,
      exists_and_right, exists_eq_right, not_exists] at hnd
    simp only [List.mem_cons, Prod.mk.injEq] at h
    rcases h with ⟨rfl, rfl⟩ | h
    · simp [GoMap.index]
    · have hk : k ≠ k1 := by
        rintro rfl
        exact hnd.1 v h
      simp only [GoMap.index, hk, if_false]
      exact ih hnd.2 h

theorem mem_of_index (meta : GoMap) (k v : GoString) (hv : v ≠ [])
    (h : meta.index k = v) : (k, v) ∈ meta := by
  induction meta with
  | nil => exact absurd h.symm hv
  | cons a t ih =>
    obtain ⟨k1, v1⟩ := a
    by_cases hk : k = k1
    · simp only [GoMap.index, hk, if_true] at h
      simp [hk, h]
    · simp only [GoMap.index, hk, if_false] at h
      simp [ih h]

/-- C3. When `Validate` succeeds, `NoLock` is true exactly when the raw value
of `nolock` is the string `true` (for a map, whose keys are distinct: exactly
when the map binds `nolock` to `true`); an absent key gives false; and no value
of any key causes an error, success depending on the keys alone. -/
theorem Validate_noLock {Time : Type} (L : TimeLib Time) (m : metadataDriver)
    (meta : GoMap) (v : volumeMetadata Time) (h : m.Validate L meta = .ok v) :
    (v.Options.NoLock = true ↔ meta.index "nolock".toList = "true".toList) ∧
    (meta.keys.Nodup →
      (v.Options.NoLock = true ↔ ("nolock".toList, "true".toList) ∈ meta)) ∧
    ("nolock".toList ∉ meta.keys → v.Options.NoLock = false) ∧
    (∀ meta1 : GoMap, meta1.keys = meta.keys →
      ∃ v1, m.Validate L meta1 = .ok v1 ∧
        (v1.Options.NoLock = true ↔ meta1.index "nolock".toList = "true".toList)) := by
  obtain ⟨hk, rfl⟩ := (Validate_ok_iff L m meta v).1 h
  have h1 : (referenceRecord L meta).Options.NoLock = true ↔
      meta.index "nolock".toList = "true".toList := by simp [referenceRecord]
  refine ⟨h1, ?_, ?_, ?_⟩
  · intro hnd
    rw [h1]
    exact ⟨fun e => mem_of_index meta _ _ (by decide) e, fun e => index_of_mem meta _ _ hnd e⟩
  · intro ha
    simp only [referenceRecord, index_absent meta _ ha]
    decide
  · intro meta1 h1
    have hk1 : validateKeys meta1 = none := by
      rw [validateKeys_none, h1]; exact (validateKeys_none meta).1 hk
    exact ⟨referenceRecord L meta1, Validate_ok_eq L m meta1 hk1, by simp [referenceRecord]⟩

theorem Validate_noLock_witness :
    exampleDriver.Validate dayTime [("nolock".toList, "True".toList)]
      = .ok (referenceRecord dayTime [("nolock".toList, "True".toList)]) ∧
    (referenceRecord dayTime [("nolock".toList, "True".toList)]).Options.NoLock = false ∧
    ((referenceRecord dayTime [("nolock".toList, "True".toList)]).Options.NoLock = true ↔
        GoMap.index [("nolock".toList, "True".toList)] "nolock".toList = "true".toList) :=
  ⟨rfl, by decide,
   (Validate_noLock dayTime exampleDriver [("nolock".toList, "True".toList)] _ rfl).1⟩

/-- C4. When `Validate` succeeds, the record it returns is the reference
record: the seven string options are the raw values copied unchanged, and the
account and the creation time are the zero values. -/
theorem Validate_reference {Time : Type} (L : TimeLib Time) (m : metadataDriver)
    (meta : GoMap) (v : volumeMetadata Time) (h : m.Validate L meta = .ok v) :
    v = referenceRecord L meta ∧ v.Account = [] ∧ v.CreatedAt = L.zero :=
  have hv := ((Validate_ok_iff L m meta v).1 h).2
  ⟨hv, by rw [hv]; rfl, by rw [hv]; rfl⟩

theorem Validate_reference_witness :
    exampleDriver.Validate dayTime
        [("uid".toList, " 0x1 ".toList), ("gid".toList, "root".toList)]
      = .ok (referenceRecord dayTime [("uid".toList, " 0x1 ".toList), ("gid".toList, "root".toList)]) ∧
    (referenceRecord dayTime [("uid".toList, " 0x1 ".toList), ("gid".toList, "root".toList)]
        = referenceRecord dayTime [("uid".toList, " 0x1 ".toList), ("gid".toList, "root".toList)] ∧
      (referenceRecord dayTime [("uid".toList, " 0x1 ".toList), ("gid".toList, "root".toList)]).Account
        = [] ∧
      (referenceRecord dayTime [("uid".toList, " 0x1 ".toList), ("gid".toList, "root".toList)]).CreatedAt
        = dayTime.zero) :=
  ⟨rfl, Validate_reference dayTime exampleDriver _ _ rfl⟩

/-! ## Paths -/

theorem splitSlash_ne_nil (l : List Char) : splitSlash l ≠ [] := by
  induction l with
  | nil => simp [splitSlash]
  | cons c cs ih =>
    unfold splitSlash
    split_ifs
    · simp
    · cases h : splitSlash cs with
      | nil => exact absurd h ih
      | cons a t => simp

theorem splitSlash_cons_of_ne (c : Char) (cs : List Char) (h : c ≠ '/') :
    ∃ a t, splitSlash cs = a :: t ∧ splitSlash (c :: cs) = (c :: a) :: t := by
  cases hs : splitSlash cs with
  | nil => exact absurd hs (splitSlash_ne_nil cs)
  | cons a t => exact ⟨a, t, rfl, by simp [splitSlash, h, hs]⟩

theorem splitSlash_append_slash (a b : List Char) :
    splitSlash (a ++ '/' :: b) = splitSlash a ++ splitSlash b := by
  induction a with
  | nil => simp [splitSlash]
  | cons c cs ih =>
    by_cases h : c = '/'
    · subst h; simp [splitSlash, ih]
    · obtain ⟨x, t, h1, h2⟩ := splitSlash_cons_of_ne c cs h
      obtain ⟨y, u, h3, h4⟩ := splitSlash_cons_of_ne c (cs ++ '/' :: b) h
      rw [List.cons_append, h4, h2]
      rw [ih, h1] at h3
      simp only [List.cons_append, List.cons.injEq] at h3
      simp [h3.1, h3.2]

theorem splitSlash_noSlash (n : List Char) (h : '/' ∉ n) : splitSlash n = [n] := by
  induction n with
  | nil => rfl
  | cons c cs ih =>
    simp only [List.mem_cons, not_or] at h
    have hc : c ≠ '/' := fun e => h.1 e.symm
    simp [splitSlash, hc, ih h.2]

theorem mem_splitSlash_noSlash (l : List Char) : ∀ c ∈ splitSlash l, '/' ∉ c := by
  induction l with
  | nil => simp [splitSlash]
  | cons c cs ih =>
    by_cases h : c = '/'
    · subst h
      intro x hx
      simp only [splitSlash, if_true, List.mem_cons] at hx
      rcases hx with rfl | hx
      · simp
      · exact ih x hx
    · obtain ⟨a, t, h1, h2⟩ := splitSlash_cons_of_ne c cs h
      rw [h2]
      rw [h1] at ih
      intro x hx
      simp only [List.mem_cons] at hx
      rcases hx with rfl | hx
      · have := ih a (by simp)
        simp only [List.mem_cons, not_or]
        exact ⟨fun e => h e.symm, this⟩
      · exact ih x (by simp [hx])

theorem splitSlash_joinSlash (cs : List (List Char)) (hne : cs ≠ [])
    (h : ∀ c ∈ cs, '/' ∉ c) : splitSlash (joinSlash cs) = cs := by
  induction cs with
  | nil => exact absurd rfl hne
  | cons a t ih =>
    cases t with
    | nil => simpa [joinSlash] using splitSlash_noSlash a (h a (by simp))
    | cons b rest =>
      simp only [joinSlash]
      rw [splitSlash_append_slash, splitSlash_noSlash a (h a (by simp)),
        ih (by simp) (fun c hc => h c (by simp [hc]))]
      rfl

theorem cleanStack_snoc (r : Bool) (l : List GoString) (c : GoString) :
    cleanStack r (l ++ [c]) = cleanStep r (cleanStack r l) c := by
  simp [cleanStack, List.foldl_append]

theorem normStack_snoc (l : List GoString) (c : GoString) :
    normStack (l ++ [c]) = normStep (normStack l) c := by
  simp [normStack, List.foldl_append]

theorem cleanStep_skip (r : Bool) (acc : List GoString) (c : GoString)
    (h : c = [] ∨ c = ['.']) : cleanStep r acc c = acc := by
  simp [cleanStep, h]

theorem cleanStep_dotdot_nil (r : Bool) :
    cleanStep r [] ['.', '.'] = if r then [] else [['.', '.']] := by
  simp [cleanStep]

theorem cleanStep_dotdot_cons (r : Bool) (x : GoString) (rest : List GoString) :
    cleanStep r (x :: rest) ['.', '.'] =
      if x = ['.', '.'] then ['.', '.'] :: x :: rest else rest := by
  simp [cleanStep]

theorem cleanStep_name (r : Bool) (acc : List GoString) (c : GoString)
    (h1 : c ≠ []) (h2 : c ≠ ['.']) (h3 : c ≠ ['.', '.']) : cleanStep r acc c = c :: acc := by
  simp [cleanStep, h1, h2, h3]

theorem normStep_skip (st : List GoString) (c : GoString)
    (h : c = [] ∨ c = ['.']) : normStep st c = st := by
  simp [normStep, h]

theorem normStep_dotdot (st : List GoString) : normStep st ['.', '.'] = st.tail := by
  simp [normStep]

theorem normStep_name (st : List GoString) (c : GoString)
    (h1 : c ≠ []) (h2 : c ≠ ['.']) (h3 : c ≠ ['.', '.']) : normStep st c = c :: st := by
  simp [normStep, h1, h2, h3]

theorem cleanStack_mem (r : Bool) (l : List GoString) :
    ∀ x ∈ cleanStack r l, x ∈ l ∧ x ≠ [] ∧ x ≠ ['.'] := by
  induction l using List.reverseRecOn with
  | nil => simp [cleanStack]
  | append_singleton l c ih =>
    rw [cleanStack_snoc]
    intro x hx
    have up : ∀ y, y ∈ cleanStack r l → y ∈ l ++ [c] ∧ y ≠ [] ∧ y ≠ ['.'] := fun y hy =>
      ⟨by simp [(ih y hy).1], (ih y hy).2⟩
    by_cases h1 : c = [] ∨ c = ['.']
    · rw [cleanStep_skip r _ c h1] at hx; exact up x hx
    · push_neg at h1
      by_cases h2 : c = ['.', '.']
      · subst h2
        cases hs : cleanStack r l with
        | nil =>
          rw [hs, cleanStep_dotdot_nil] at hx
          cases r
          · simp only [Bool.false_eq_true, if_false, List.mem_singleton] at hx
            subst hx; simp
          · simp at hx
        | cons y rest =>
          rw [hs, cleanStep_dotdot_cons] at hx
          rw [hs] at up
          split_ifs at hx with h3
          · simp only [List.mem_cons] at hx
            rcases hx with rfl | hx
            · simp
            · exact up x (by simpa using hx)
          · exact up x (by simp [hx])
      · rw [cleanStep_name r _ c h1.1 h1.2 h2] at hx
        simp only [List.mem_cons] at hx
        rcases hx with rfl | hx
        · exact ⟨by simp, h1.1, h1.2⟩
        · exact up x hx

theorem normStack_cleanStack (r : Bool) (l : List GoString) :
    normStack (cleanStack r l).reverse = normStack l := by
  induction l using List.reverseRecOn with
  | nil => simp [cleanStack, normStack]
  | append_singleton l c ih =>
    rw [cleanStack_snoc, normStack_snoc, ← ih]
    have hmem := cleanStack_mem r l
    by_cases h1 : c = [] ∨ c = ['.']
    · rw [cleanStep_skip r _ c h1, normStep_skip _ c h1]
    · push_neg at h1
      by_cases h2 : c = ['.', '.']
      · subst h2
        rw [normStep_dotdot]
        cases hs : cleanStack r l with
        | nil =>
          rw [cleanStep_dotdot_nil]
          cases r <;> simp [normStack, normStep]
        | cons y rest =>
          rw [hs] at hmem
          obtain ⟨_, hy1, hy2⟩ := hmem y (by simp)
          rw [cleanStep_dotdot_cons]
          split_ifs with h3
          · simp only [List.reverse_cons, normStack_snoc, normStep_dotdot]
          · simp only [List.reverse_cons, normStack_snoc]
            rw [normStep_name _ y hy1 hy2 h3]; rfl
      · rw [cleanStep_name r _ c h1.1 h1.2 h2, normStep_name _ c h1.1 h1.2 h2]
        simp only [List.reverse_cons, normStack_snoc]
        rw [normStep_name _ c h1.1 h1.2 h2]

theorem joinSlash_snoc (pre : List GoString) (n : GoString) :
    joinSlash (pre ++ [n]) = if pre = [] then n else joinSlash pre ++ '/' :: n := by
  induction pre with
  | nil => simp [joinSlash]
  | cons a t ih =>
    cases t with
    | nil => simp [joinSlash]
    | cons b rest =>
      simp only [List.cons_append, reduceCtorEq, if_false] at ih ⊢
      show a ++ '/' :: joinSlash (b :: (rest ++ [n])) = _
      rw [ih]; simp [joinSlash]

theorem normStack_nil_cons (cs : List GoString) : normStack ([] :: cs) = normStack cs := by
  simp [normStack, normStep]

/-- The cleaned path of `d/n` for a plain name `n`: its text and its elements. -/
theorem Join_plain (d n : GoString) (hd : d ≠ []) (hn : plainName n) :
    Join d n = renderPath (isRooted d) ((cleanStack (isRooted d) (splitSlash d)).reverse ++ [n]) := by
  obtain ⟨h1, h2, h3, h4⟩ := hn
  have hr : isRooted (d ++ '/' :: n) = isRooted d := by
    cases d with
    | nil => exact absurd rfl hd
    | cons c cs => rfl
  simp only [Join, hd, ne_eq, not_false_eq_true, if_true, Clean, List.append_eq_nil, false_and,
    if_false, hr]
  rw [splitSlash_append_slash, splitSlash_noSlash n h4]
  rw [cleanStack_snoc, cleanStep_name _ _ n h1 h2 h3]
  simp

theorem splitSlash_renderPath (r : Bool) (cs : List GoString) (hne : cs ≠ [])
    (h : ∀ c ∈ cs, '/' ∉ c) :
    splitSlash (renderPath r cs) = if r then [] :: cs else cs := by
  cases r
  · simp [renderPath, hne, splitSlash_joinSlash cs hne h]
  · simp [renderPath, splitSlash, splitSlash_joinSlash cs hne h]

theorem resolve_of_ne (p : GoString) (h : p ≠ []) :
    resolve p = some (normStack (splitSlash p)).reverse := by
  simp [resolve, h]

theorem Join_plain_ne_nil (d n : GoString) (hd : d ≠ []) (hn : plainName n) : Join d n ≠ [] := by
  rw [Join_plain d n hd hn]
  have h1 := hn.1
  unfold renderPath
  rw [joinSlash_snoc]
  split_ifs <;> simp_all

/-- Resolving `d/n` for a plain name `n` gives the directory `d` and then `n`. -/
theorem resolve_Join_plain (d n : GoString) (hd : d ≠ []) (hn : plainName n) :
    resolve (Join d n) = some ((normStack (splitSlash d)).reverse ++ [n]) := by
  rw [resolve_of_ne _ (Join_plain_ne_nil d n hd hn), Join_plain d n hd hn]
  have hmem : ∀ c ∈ (cleanStack (isRooted d) (splitSlash d)).reverse ++ [n], '/' ∉ c := by
    intro c hc
    simp only [List.mem_append, List.mem_reverse, List.mem_singleton] at hc
    rcases hc with hc | rfl
    · exact mem_splitSlash_noSlash d c (cleanStack_mem _ _ c hc).1
    · exact hn.2.2.2
  rw [splitSlash_renderPath _ _ (by simp) hmem]
  have key : normStack ((cleanStack (isRooted d) (splitSlash d)).reverse ++ [n])
      = n :: normStack (splitSlash d) := by
    rw [normStack_snoc, normStack_cleanStack, normStep_name _ n hn.1 hn.2.1 hn.2.2.1]
  generalize isRooted d = r at key hmem ⊢
  cases r
  · simp [key]
  · simp [normStack_nil_cons, key]

theorem takeWhile_append_stop {α : Type} (p : α → Bool) (l r : List α)
    (hl : ∀ x ∈ l, p x = true) (hr : r = [] ∨ ∃ y t, r = y :: t ∧ p y = false) :
    (l ++ r).takeWhile p = l := by
  induction l with
  | nil =>
    rcases hr with rfl | ⟨y, t, rfl, hy⟩
    · rfl
    · simp [List.takeWhile, hy]
  | cons a t ih =>
    rw [List.cons_append, List.takeWhile_cons, if_pos (hl a (by simp)),
      ih (fun x hx => hl x (by simp [hx]))]

theorem Base_append_plain (X n : GoString) (hn : plainName n)
    (hX : X = [] ∨ ∃ Y, X = Y ++ ['/']) : Base (X ++ n) = n := by
  obtain ⟨h1, _, _, h4⟩ := hn
  have hne : X ++ n ≠ [] := by simp [h1]
  obtain ⟨a, t, hrev⟩ : ∃ a t, n.reverse = a :: t := by
    cases h : n.reverse with
    | nil => exact absurd (List.reverse_eq_nil_iff.1 h) h1
    | cons a t => exact ⟨a, t, rfl⟩
  have ha : a ≠ '/' := by
    intro e
    apply h4
    have : a ∈ n.reverse := by rw [hrev]; simp
    rw [← e]; simpa using this
  have hdrop : ((X ++ n).reverse.dropWhile (fun c => decide (c = '/'))) = (X ++ n).reverse := by
    rw [List.reverse_append, hrev]
    simp [List.dropWhile, ha]
  have htake : ((X ++ n).reverse.takeWhile (fun c => decide (c ≠ '/'))) = n.reverse := by
    rw [List.reverse_append]
    apply takeWhile_append_stop
    · intro x hx
      have : x ∈ n := by simpa using hx
      simp only [ne_eq, decide_not, Bool.not_eq_eq_eq_not, Bool.not_true, decide_eq_false_iff_not]
      intro e; exact h4 (e ▸ this)
    · rcases hX with rfl | ⟨Y, rfl⟩
      · left; rfl
      · right; exact ⟨'/', Y.reverse, by simp, by simp⟩
  simp only [Base, hne, if_false, hdrop, List.reverse_reverse, htake]
  simp [h1]

theorem Base_Join_plain (d n : GoString) (hd : d ≠ []) (hn : plainName n) :
    Base (Join d n) = n := by
  rw [Join_plain d n hd hn]
  generalize (cleanStack (isRooted d) (splitSlash d)).reverse = pre
  cases isRooted d
  · simp only [renderPath, Bool.false_eq_true, if_false, List.append_eq_nil, and_false,
      reduceCtorEq]
    rw [joinSlash_snoc]
    split_ifs with h
    · exact Base_append_plain [] n hn (Or.inl rfl)
    · have : joinSlash pre ++ '/' :: n = (joinSlash pre ++ ['/']) ++ n := by simp
      rw [this]
      exact Base_append_plain _ n hn (Or.inr ⟨_, rfl⟩)
  · simp only [renderPath, if_true]
    rw [joinSlash_snoc]
    split_ifs with h
    · exact Base_append_plain ['/'] n hn (Or.inr ⟨[], rfl⟩)
    · have : '/' :: (joinSlash pre ++ '/' :: n) = ('/' :: joinSlash pre ++ ['/']) ++ n := by simp
      rw [this]
      exact Base_append_plain _ n hn (Or.inr ⟨_, rfl⟩)

theorem Join_plain_ne_dir (d n : GoString) (hd : d ≠ []) (hn : plainName n) : Join d n ≠ d := by
  intro h
  have h1 := resolve_Join_plain d n hd hn
  rw [h, resolve_of_ne d hd] at h1
  simp at h1

/-! ## The file system -/

theorem lookupEnt_filter (f : List GoString → Bool) (ents : List (List GoString × Entry))
    (p : List GoString) :
    lookupEnt (ents.filter (fun e => f e.1)) p = if f p then lookupEnt ents p else none := by
  induction ents with
  | nil => simp [lookupEnt]
  | cons a t ih =>
    obtain ⟨k, e⟩ := a
    by_cases hk : k = p
    · subst hk
      by_cases hf : f k = true
      · simp [List.filter, hf, lookupEnt]
      · simp only [Bool.not_eq_true] at hf
        simp [List.filter, hf, lookupEnt, ih]
    · by_cases hf : f k = true
      · simp [List.filter, hf, lookupEnt, hk, ih]
      · simp only [Bool.not_eq_true] at hf
        simp [List.filter, hf, lookupEnt, hk, ih]

theorem lookupEnt_eq_none (ents : List (List GoString × Entry)) (p : List GoString) :
    lookupEnt ents p = none ↔ ∀ e ∈ ents, e.1 ≠ p := by
  induction ents with
  | nil => simp [lookupEnt]
  | cons a t ih =>
    obtain ⟨k, e⟩ := a
    by_cases hk : k = p
    · simp [lookupEnt, hk]
    · simp [lookupEnt, hk, ih]

theorem lookupEnt_mem (ents : List (List GoString × Entry)) (p : List GoString) (e : Entry)
    (h : lookupEnt ents p = some e) : (p, e) ∈ ents := by
  induction ents with
  | nil => simp [lookupEnt] at h
  | cons a t ih =>
    obtain ⟨k, e1⟩ := a
    by_cases hk : k = p
    · simp only [lookupEnt, hk, if_true, Option.some.injEq] at h
      simp [hk, h]
    · simp only [lookupEnt, hk, if_false] at h
      simp [ih h]

theorem lookupEnt_eraseEnt (ents : List (List GoString × Entry)) (p q : List GoString) :
    lookupEnt (eraseEnt ents p) q = if q = p then none else lookupEnt ents q := by
  have := lookupEnt_filter (fun k => decide (k ≠ p)) ents q
  unfold eraseEnt
  rw [this]
  by_cases h : q = p <;> simp [h]

/-- What `WriteFile` does when it succeeds: the path resolves to a place other
than the root, the file with the data is there afterwards, and every other
place is as before. -/
theorem WriteFile_some (fs fs1 : FS) (path : GoString) (data : List Char)
    (h : WriteFile fs path data = some fs1) :
    ∃ p, resolve path = some p ∧ p ≠ [] ∧ fs.kind p ≠ some Entry.dir ∧
      fs.kind p.dropLast = some Entry.dir ∧
      fs1.ents = (p, Entry.file data) :: eraseEnt fs.ents p := by
  unfold WriteFile at h
  cases hr : resolve path with
  | none => simp [hr] at h
  | some p =>
    simp only [hr] at h
    have hk : fs.kind p ≠ some Entry.dir := by
      intro hk; simp [hk] at h
    have hp : p ≠ [] := by
      intro hp; apply hk; simp [FS.kind, hp]
    have h2 : (if fs.kind p.dropLast = some Entry.dir then
        some ({ fs with ents := (p, Entry.file data) :: eraseEnt fs.ents p } : FS) else none)
        = some fs1 := by
      cases hkp : fs.kind p with
      | none => simpa [hkp] using h
      | some e =>
        cases e with
        | dir => exact absurd hkp hk
        | file d => simpa [hkp] using h
    by_cases hd : fs.kind p.dropLast = some Entry.dir
    · rw [if_pos hd] at h2
      injection h2 with h2
      exact ⟨p, rfl, hp, hk, hd, by rw [← h2]⟩
    · rw [if_neg hd] at h2; exact absurd h2 (by simp)

theorem WriteFile_kind (fs fs1 : FS) (path : GoString) (data : List Char) (p : List GoString)
    (h : WriteFile fs path data = some fs1) (hp : resolve path = some p) (q : List GoString) :
    fs1.kind q = if q = p then some (Entry.file data) else fs.kind q := by
  obtain ⟨p1, h1, h2, _, _, h5⟩ := WriteFile_some fs fs1 path data h
  rw [hp] at h1; injection h1 with h1; subst h1
  unfold FS.kind
  rw [h5]
  by_cases hq : q = p
  · subst hq; simp [h2, lookupEnt]
  · have hq1 : ¬ p = q := fun e => hq e.symm
    by_cases h0 : q = []
    · simp [h0, h2]
    · simp [h0, hq, hq1, lookupEnt, lookupEnt_eraseEnt]

theorem ReadFile_eq (fs : FS) (path : GoString) :
    ReadFile fs path = match resolve path with
      | none => none
      | some p => match fs.kind p with
        | some (Entry.file data) => some data
        | _ => none := by
  unfold ReadFile Lstat
  cases resolve path <;> rfl

/-- `ReadFile` depends on the state only through the entry at the resolved
path. -/
theorem ReadFile_congr (fs fs1 : FS) (path : GoString)
    (h : ∀ p, resolve path = some p → fs1.kind p = fs.kind p) :
    ReadFile fs1 path = ReadFile fs path := by
  rw [ReadFile_eq, ReadFile_eq]
  cases hr : resolve path with
  | none => rfl
  | some p => simp only [h p hr]

/-- What `RemoveAll` does: either nothing, or the path resolves and every table
entry at or below it is dropped. -/
theorem RemoveAll_cases (fs : FS) (path : GoString) :
    ((RemoveAll fs path).1 = fs ∧
      ((RemoveAll fs path).2 = false → path = [])) ∨
    (∃ p, resolve path = some p ∧ path ≠ [] ∧ endsWithDot path = false ∧
      (RemoveAll fs path).1 = { fs with ents := fs.ents.filter (fun e => ¬ p.isPrefixOf e.1) } ∧
      (RemoveAll fs path).2 = decide (p = [])) := by
  unfold RemoveAll
  by_cases h1 : path = []
  · left; simp [h1]
  · by_cases h2 : endsWithDot path = true
    · left; simp [h1, h2]
    · cases hr : resolve path with
      | none => simp [resolve, h1] at hr
      | some p =>
        right
        simp only [Bool.not_eq_true] at h2
        exact ⟨p, rfl, h1, h2, by simp [h1, h2], by simp [h1, h2]⟩

theorem kind_filter_below (fs : FS) (p q : List GoString) :
    FS.kind { fs with ents := fs.ents.filter (fun e => ¬ p.isPrefixOf e.1) } q =
      if q = [] then some Entry.dir else if p.isPrefixOf q then none else fs.kind q := by
  unfold FS.kind
  by_cases h0 : q = []
  · simp [h0]
  · have := lookupEnt_filter (fun k => ! p.isPrefixOf k) fs.ents q
    simp only [h0, if_false]
    simp only [Bool.not_eq_true, Bool.decide_eq_false] at this ⊢
    rw [this]
    cases p.isPrefixOf q <;> simp

theorem FS_depth_le (fs : FS) : ∀ e ∈ fs.ents, e.1.length ≤ fs.depth := by
  unfold FS.depth
  have key : ∀ (l : List (List GoString × Entry)) (d : Nat),
      d ≤ l.foldl (fun d e => max d e.1.length) d ∧
      ∀ e ∈ l, e.1.length ≤ l.foldl (fun d e => max d e.1.length) d := by
    intro l
    induction l with
    | nil => intro d; simp
    | cons a t ih =>
      intro d
      simp only [List.foldl_cons, List.mem_cons]
      obtain ⟨h1, h2⟩ := ih (max d a.1.length)
      refine ⟨le_trans (le_max_left _ _) h1, ?_⟩
      intro e he
      rcases he with rfl | he
      · exact le_trans (le_max_right _ _) h1
      · exact h2 e he
  exact (key fs.ents 0).2

theorem childName_eq_some (p k : List GoString) (n : GoString) :
    childName p k = some n ↔ k = p ++ [n] := by
  unfold childName
  constructor
  · intro h
    have hk := List.take_append_drop p.length k
    cases hd : k.drop p.length with
    | nil => simp [hd] at h
    | cons a t =>
      cases t with
      | cons b u => simp [hd] at h
      | nil =>
        simp only [hd] at h
        split_ifs at h with h1
        injection h with h
        rw [← hk, h1, hd, h]
  · rintro rfl
    simp

theorem mem_readDirNames (fs : FS) (path : GoString) (p : List GoString)
    (hp : resolve path = some p) (n : GoString) :
    n ∈ readDirNames fs path ↔ lookupEnt fs.ents (p ++ [n]) ≠ none := by
  unfold readDirNames
  simp only [hp]
  rw [(List.perm_insertionSort _ _).mem_iff, List.mem_dedup, List.mem_filterMap]
  simp only [childName_eq_some, ne_eq, lookupEnt_eq_none, not_forall, Classical.not_not]
  constructor
  · rintro ⟨e, he, h⟩; exact ⟨e, he, h⟩
  · rintro ⟨e, he, h⟩; exact ⟨e, he, h⟩

theorem nodup_readDirNames (fs : FS) (path : GoString) : (readDirNames fs path).Nodup := by
  unfold readDirNames
  cases resolve path with
  | none => simp
  | some p =>
    simp only
    exact (List.perm_insertionSort _ _).nodup_iff.2 (List.nodup_dedup _)

/-! ## The store -/

theorem resolve_some_ne (path : GoString) (p : List GoString) (h : resolve path = some p) :
    path ≠ [] ∧ p = (normStack (splitSlash path)).reverse := by
  by_cases h0 : path = []
  · simp [resolve, h0] at h
  · rw [resolve_of_ne path h0] at h
    injection h with h
    exact ⟨h0, h.symm⟩

theorem resolve_path_plain (m : metadataDriver) (b : List GoString) (n : GoString)
    (hb : resolve m.metaDir = some b) (hn : plainName n) :
    resolve (m.path n) = some (b ++ [n]) := by
  obtain ⟨h0, rfl⟩ := resolve_some_ne _ _ hb
  exact resolve_Join_plain m.metaDir n h0 hn

theorem Lstat_eq (fs : FS) (path : GoString) (p : List GoString) (h : resolve path = some p) :
    Lstat fs path = fs.kind p := by
  simp [Lstat, h]

theorem listWalkFn_file (m : metadataDriver) (path : GoString) (vol : List GoString)
    (h : path ≠ m.metaDir) :
    listWalkFn m path (some false) none vol = (none, vol ++ [Base path]) := by
  simp [listWalkFn, h]

theorem listWalkFn_dir (m : metadataDriver) (path : GoString) (vol : List GoString)
    (h : path ≠ m.metaDir) :
    listWalkFn m path (some true) none vol = (some WalkErr.SkipDir, vol) := by
  simp [listWalkFn, h]

theorem listWalkFn_root (m : metadataDriver) (info : Option Bool) (vol : List GoString) :
    listWalkFn m m.metaDir info none vol = (none, vol) := by
  simp [listWalkFn]

/-- The loop of `walk` over the names of the base directory collects the
names of the regular files and skips the directories. -/
theorem walk_loop (m : metadataDriver) (fs : FS) (b : List GoString)
    (hb : resolve m.metaDir = some b) (fuel : Nat) (names : List GoString)
    (hnames : ∀ n ∈ names, plainName n ∧ lookupEnt fs.ents (b ++ [n]) ≠ none)
    (hfuel : names ≠ [] → 0 < fuel) (vol : List GoString) :
    names.foldl (walkEntry fs (listWalkFn m)
        (fun p d s => walk fs (listWalkFn m) fuel p d s) m.metaDir) (none, vol)
      = (none, vol ++ names.filter (fun n => fs.isFileAt (b ++ [n]))) := by
  induction names generalizing vol with
  | nil => simp
  | cons n rest ih =>
    obtain ⟨hn, hex⟩ := hnames n (by simp)
    obtain ⟨k, hk⟩ : ∃ k, fuel = k + 1 := by
      have := hfuel (by simp)
      exact ⟨fuel - 1, by omega⟩
    obtain ⟨h0, _⟩ := resolve_some_ne _ _ hb
    have hres : resolve (Join m.metaDir n) = some (b ++ [n]) := resolve_path_plain m b n hb hn
    have hneq : Join m.metaDir n ≠ m.metaDir := Join_plain_ne_dir _ _ h0 hn
    have hbase : Base (Join m.metaDir n) = n := Base_Join_plain _ _ h0 hn
    have hkind : fs.kind (b ++ [n]) = lookupEnt fs.ents (b ++ [n]) := by simp [FS.kind]
    have hl : Lstat fs (Join m.metaDir n) = lookupEnt fs.ents (b ++ [n]) := by
      rw [Lstat_eq fs _ _ hres, hkind]
    rw [List.foldl_cons]
    have step : walkEntry fs (listWalkFn m)
        (fun p d s => walk fs (listWalkFn m) fuel p d s) m.metaDir (none, vol) n
        = (none, vol ++ (if fs.isFileAt (b ++ [n]) then [n] else [])) := by
      cases he : lookupEnt fs.ents (b ++ [n]) with
      | none => exact absurd he hex
      | some e =>
        cases e with
        | file d =>
          simp only [walkEntry, hl, he, Entry.IsDir, hk, walk, if_true,
            listWalkFn_file m _ vol hneq, hbase, FS.isFileAt, hkind]
          simp
        | dir =>
          simp only [walkEntry, hl, he, Entry.IsDir, hk, walk, FS.isFileAt, hkind,
            listWalkFn_dir m _ vol hneq]
          simp
    rw [step, ih (fun x hx => hnames x (by simp [hx])) (fun _ => by omega)]
    by_cases hf : fs.isFileAt (b ++ [n]) = true
    · simp [hf, List.filter]
    · simp only [Bool.not_eq_true] at hf
      simp [hf, List.filter]

/-- `List` on an existing base directory whose entries have plain names: the
sorted names of the regular files directly in it. -/
theorem List_eq (m : metadataDriver) (fs : FS) (b : List GoString)
    (hb : resolve m.metaDir = some b) (hdir : fs.kind b = some Entry.dir)
    (hplain : ∀ e ∈ fs.ents, ∀ n, e.1 = b ++ [n] → plainName n) :
    m.List fs = .ok ((readDirNames fs m.metaDir).filter (fun n => fs.isFileAt (b ++ [n]))) := by
  have hl : Lstat fs m.metaDir = some Entry.dir := by rw [Lstat_eq fs _ _ hb, hdir]
  have hnames : ∀ n ∈ readDirNames fs m.metaDir,
      plainName n ∧ lookupEnt fs.ents (b ++ [n]) ≠ none := by
    intro n hn
    have h1 := (mem_readDirNames fs _ b hb n).1 hn
    refine ⟨?_, h1⟩
    cases he : lookupEnt fs.ents (b ++ [n]) with
    | none => exact absurd he h1
    | some e => exact hplain _ (lookupEnt_mem _ _ _ he) n rfl
  have hfuel : readDirNames fs m.metaDir ≠ [] → 0 < fs.depth := by
    intro hne
    obtain ⟨n, t, hnt⟩ := List.exists_cons_of_ne_nil hne
    have h1 := (hnames n (by rw [hnt]; simp)).2
    cases he : lookupEnt fs.ents (b ++ [n]) with
    | none => exact absurd he h1
    | some e =>
      have := FS_depth_le fs _ (lookupEnt_mem _ _ _ he)
      simp at this; omega
  have hloop := walk_loop m fs b hb fs.depth _ hnames hfuel []
  simp only [metadataDriver.List, Walk, hl, Entry.IsDir, walk, listWalkFn_root, hloop]
  simp

theorem Get_eq (Time : Type) (L : TimeLib Time) (m : metadataDriver) (n : GoString) (fs : FS) :
    m.Get L n fs = match ReadFile fs (m.path n) with
      | none => .error Error.cannotRead
      | some b => match Unmarshal L b (volumeMetadata.zero L) with
        | none => .error Error.cannotDeserialize
        | some v => .ok v := rfl

theorem Set_cases {Time : Type} (L : TimeLib Time) (m : metadataDriver) (n : GoString)
    (r : volumeMetadata Time) (fs : FS) :
    ((m.Set L n r fs).1 ≠ none ∧ (m.Set L n r fs).2 = fs) ∨
    (∃ b fs1, Marshal L r = some b ∧ WriteFile fs (m.path n) b = some fs1 ∧
      m.Set L n r fs = (none, fs1)) := by
  unfold metadataDriver.Set
  cases hm : Marshal L r with
  | none => left; simp
  | some b =>
    cases hw : WriteFile fs (m.path n) b with
    | none => left; simp [hw]
    | some fs1 => right; exact ⟨b, fs1, rfl, hw, by simp [hw]⟩

/-- `Set` changes nothing at a place other than the one its path names. -/
theorem Set_kind {Time : Type} (L : TimeLib Time) (m : metadataDriver) (n : GoString)
    (r : volumeMetadata Time) (fs : FS) (q : List GoString)
    (h : resolve (m.path n) ≠ some q) : (m.Set L n r fs).2.kind q = fs.kind q := by
  rcases Set_cases L m n r fs with ⟨_, h2⟩ | ⟨b, fs1, _, hw, hs⟩
  · rw [h2]
  · rw [hs]
    obtain ⟨p, hp, _⟩ := WriteFile_some fs fs1 _ b hw
    rw [WriteFile_kind fs fs1 _ b p hw hp q]
    have : q ≠ p := by rintro rfl; exact h hp
    simp [this]

/-- `Delete` changes nothing at a place that its path does not reach. -/
theorem Delete_kind (m : metadataDriver) (n : GoString) (fs : FS) (q : List GoString)
    (h : ∀ p, resolve (m.path n) = some p → p.isPrefixOf q = false) :
    (m.Delete n fs).2.kind q = fs.kind q := by
  have hst : (m.Delete n fs).2 = (RemoveAll fs (m.path n)).1 := by
    unfold metadataDriver.Delete
    cases h2 : (RemoveAll fs (m.path n)).2 <;> simp [h2]
  rw [hst]
  rcases RemoveAll_cases fs (m.path n) with ⟨h1, _⟩ | ⟨p, hp, _, _, h4, _⟩
  · rw [h1]
  · rw [h4, kind_filter_below, h p hp]
    by_cases h0 : q = []
    · simp [h0, FS.kind]
    · simp [h0]

theorem Get_congr {Time : Type} (L : TimeLib Time) (m : metadataDriver) (n : GoString)
    (fs fs1 : FS) (h : ReadFile fs1 (m.path n) = ReadFile fs (m.path n)) :
    m.Get L n fs1 = m.Get L n fs := by
  rw [Get_eq, Get_eq, h]

theorem isPrefixOf_snoc (b : List GoString) (x y : GoString) :
    (b ++ [x]).isPrefixOf (b ++ [y]) = decide (x = y) := by
  induction b with
  | nil => by_cases h : x = y <;> simp [List.isPrefixOf, h]
  | cons a t ih => simp [List.isPrefixOf, ih]

theorem isPrefixOf_snoc_self (b : List GoString) (x : GoString) :
    (b ++ [x]).isPrefixOf b = false := by
  induction b with
  | nil => simp [List.isPrefixOf]
  | cons a t ih => simp [List.isPrefixOf, ih]

/-- C9, as amended. `Set` under a name leaves alone what `Get` returns under
every name whose path names another place, and `Delete` under a name leaves
alone what `Get` returns under every name whose place its path does not reach;
two different plain names under a non-empty directory are such names. -/
theorem frame_Set_Delete {Time : Type} (L : TimeLib Time) (m : metadataDriver)
    (n1 n2 : GoString) (r : volumeMetadata Time) (fs : FS) :
    (resolve (m.path n1) ≠ resolve (m.path n2) →
      ReadFile (m.Set L n1 r fs).2 (m.path n2) = ReadFile fs (m.path n2) ∧
      m.Get L n2 (m.Set L n1 r fs).2 = m.Get L n2 fs) ∧
    (reaches (m.path n1) (m.path n2) = false →
      ReadFile (m.Delete n1 fs).2 (m.path n2) = ReadFile fs (m.path n2) ∧
      m.Get L n2 (m.Delete n1 fs).2 = m.Get L n2 fs) ∧
    (m.metaDir ≠ [] → plainName n1 → plainName n2 → n1 ≠ n2 →
      resolve (m.path n1) ≠ resolve (m.path n2) ∧
      reaches (m.path n1) (m.path n2) = false) := by
  refine ⟨fun h => ?_, fun h => ?_, fun hd h1 h2 hne => ?_⟩
  · have hr : ReadFile (m.Set L n1 r fs).2 (m.path n2) = ReadFile fs (m.path n2) :=
      ReadFile_congr _ _ _ (fun p hp => Set_kind L m n1 r fs p (by rw [← hp]; exact h))
    exact ⟨hr, Get_congr L m n2 _ _ hr⟩
  · have hr : ReadFile (m.Delete n1 fs).2 (m.path n2) = ReadFile fs (m.path n2) := by
      apply ReadFile_congr
      intro p2 hp2
      apply Delete_kind
      intro p1 hp1
      simpa [reaches, hp1, hp2] using h
    exact ⟨hr, Get_congr L m n2 _ _ hr⟩
  · have hb : resolve m.metaDir = some (normStack (splitSlash m.metaDir)).reverse :=
      resolve_of_ne _ hd
    have e1 := resolve_path_plain m _ n1 hb h1
    have e2 := resolve_path_plain m _ n2 hb h2
    refine ⟨?_, ?_⟩
    · rw [e1, e2]; simpa using hne
    · simp only [reaches, e1, e2, isPrefixOf_snoc]
      simpa using hne

theorem frame_Set_Delete_witness :
    (ReadFile (exampleDriver.Set dayTime "a".toList exampleRecord exampleFS).2
        (exampleDriver.path "b".toList)
      = ReadFile exampleFS (exampleDriver.path "b".toList) ∧
      exampleDriver.Get dayTime "b".toList
          (exampleDriver.Set dayTime "a".toList exampleRecord exampleFS).2
        = exampleDriver.Get dayTime "b".toList exampleFS) ∧
    (ReadFile (exampleDriver.Delete "a".toList exampleFS).2 (exampleDriver.path "b".toList)
      = ReadFile exampleFS (exampleDriver.path "b".toList) ∧
      exampleDriver.Get dayTime "b".toList (exampleDriver.Delete "a".toList exampleFS).2
        = exampleDriver.Get dayTime "b".toList exampleFS) ∧
    (resolve (exampleDriver.path "a".toList) ≠ resolve (exampleDriver.path "b".toList) ∧
      reaches (exampleDriver.path "a".toList) (exampleDriver.path "b".toList) = false) :=
  ⟨(frame_Set_Delete dayTime exampleDriver "a".toList "b".toList exampleRecord exampleFS).1
      (by decide),
   (frame_Set_Delete dayTime exampleDriver "a".toList "b".toList exampleRecord exampleFS).2.1
      (by decide),
   (frame_Set_Delete dayTime exampleDriver "a".toList "b".toList exampleRecord exampleFS).2.2
      (by decide) (by decide) (by decide) (by decide)⟩

/-! ## JSON -/

theorem isFileAt_lookup (fs : FS) (b : List GoString) (x : GoString)
    (h : fs.isFileAt (b ++ [x]) = true) : lookupEnt fs.ents (b ++ [x]) ≠ none := by
  unfold FS.isFileAt FS.kind at h
  simp only [List.append_eq_nil, List.cons_ne_self, and_false, if_false] at h
  intro e
  rw [e] at h
  simp at h

/-- What `List` returns on an existing base directory whose entries have plain
names: each regular file directly in it, once. -/
theorem List_files (m : metadataDriver) (fs : FS) (b : List GoString)
    (hb : resolve m.metaDir = some b) (hdir : fs.kind b = some Entry.dir)
    (hplain : ∀ e ∈ fs.ents, ∀ n, e.1 = b ++ [n] → plainName n) :
    ∃ l, m.List fs = .ok l ∧ l.Nodup ∧ ∀ x, x ∈ l ↔ fs.isFileAt (b ++ [x]) = true := by
  refine ⟨_, List_eq m fs b hb hdir hplain, (nodup_readDirNames fs _).filter _, ?_⟩
  intro x
  rw [List.mem_filter, mem_readDirNames fs _ b hb]
  exact ⟨fun h => h.2, fun h => ⟨isFileAt_lookup fs b x h, h⟩⟩

/-- C8. On a well-formed file system in which the base directory exists,
`List` returns without error the names of exactly the regular files that lie
directly in the base directory, each once: a name is reported if and only if
the entry of that name in the base directory is a regular file, so neither
the base directory, nor a subdirectory, nor a file below a subdirectory is
reported, and no file beside a subdirectory is left out. -/
theorem List_direct_files (m : metadataDriver) (fs : FS) (b : List GoString)
    (hb : resolve m.metaDir = some b) (hdir : fs.kind b = some Entry.dir)
    (hwf : fs.wellFormed) :
    ∃ l, m.List fs = .ok l ∧ l.Nodup ∧
      (∀ x, x ∈ l ↔ ∃ data, fs.kind (b ++ [x]) = some (Entry.file data)) ∧
      (∀ x ∈ l, plainName x ∧ fs.kind (b ++ [x]) ≠ some Entry.dir) ∧
      (∀ d x data, fs.kind (b ++ [d]) = some Entry.dir →
        fs.kind (b ++ [d, x]) = some (Entry.file data) →
        (x ∈ l ↔ ∃ data1, fs.kind (b ++ [x]) = some (Entry.file data1)) ∧ d ∉ l) := by
  have hplain : ∀ e ∈ fs.ents, ∀ n, e.1 = b ++ [n] → plainName n := by
    intro e he n hn
    exact hwf e he n (by rw [hn]; simp)
  obtain ⟨l, hl, hnd, hmem⟩ := List_files m fs b hb hdir hplain
  have hfile : ∀ x, fs.isFileAt (b ++ [x]) = true ↔
      ∃ data, fs.kind (b ++ [x]) = some (Entry.file data) := by
    intro x
    unfold FS.isFileAt
    cases hk : fs.kind (b ++ [x]) with
    | none => simp
    | some e => cases e <;> simp
  have hmem2 : ∀ x, x ∈ l ↔ ∃ data, fs.kind (b ++ [x]) = some (Entry.file data) :=
    fun x => (hmem x).trans (hfile x)
  refine ⟨l, hl, hnd, hmem2, ?_, ?_⟩
  · intro x hx
    obtain ⟨data, hd⟩ := (hmem2 x).1 hx
    refine ⟨?_, by rw [hd]; simp⟩
    have hk : lookupEnt fs.ents (b ++ [x]) = some (Entry.file data) := by
      simpa [FS.kind] using hd
    exact hplain _ (lookupEnt_mem _ _ _ hk) x rfl
  · intro d x data hd _
    refine ⟨hmem2 x, ?_⟩
    intro hdl
    obtain ⟨data1, h1⟩ := (hmem2 d).1 hdl
    rw [hd] at h1
    simp at h1

theorem List_direct_files_witness :
    resolve exampleDriver.metaDir = some ["meta".toList] ∧
    exampleTree.kind ["meta".toList] = some Entry.dir ∧ exampleTree.wellFormed ∧
    exampleDriver.List exampleTree = .ok ["a".toList, "b".toList] ∧
    ∃ l, exampleDriver.List exampleTree = .ok l ∧ l.Nodup ∧
      (∀ x, x ∈ l ↔ ∃ data, exampleTree.kind (["meta".toList] ++ [x]) = some (Entry.file data)) ∧
      (∀ x ∈ l, plainName x ∧ exampleTree.kind (["meta".toList] ++ [x]) ≠ some Entry.dir) ∧
      (∀ d x data, exampleTree.kind (["meta".toList] ++ [d]) = some Entry.dir →
        exampleTree.kind (["meta".toList] ++ [d, x]) = some (Entry.file data) →
        (x ∈ l ↔ ∃ data1, exampleTree.kind (["meta".toList] ++ [x]) = some (Entry.file data1)) ∧
          d ∉ l) :=
  ⟨by decide, by decide, by decide, by rfl,
   List_direct_files exampleDriver exampleTree ["meta".toList] (by decide) (by decide)
     (by decide)⟩

theorem runOps_append {Time : Type} (L : TimeLib Time) (m : metadataDriver)
    (ops : List (Op Time)) (op : Op Time) (fs : FS) :
    runOps L m (ops ++ [op]) fs
      = (runOps L m ops fs).bind (fun s => if (op.run L m s).1 = none
          then some (op.run L m s).2 else none) := by
  induction ops generalizing fs with
  | nil =>
    simp only [List.nil_append, runOps, Option.some_bind]
    rcases h : op.run L m fs with ⟨_ | e, s⟩ <;> simp
  | cons a t ih =>
    simp only [List.cons_append, runOps]
    rcases h : a.run L m fs with ⟨_ | e, s⟩
    · exact ih s
    · simp

theorem setAndKept_nil {Time : Type} (x : GoString) : ¬ setAndKept ([] : List (Op Time)) x := by
  rintro ⟨pre, meta, post, h, _⟩
  simp at h

theorem append_singleton_eq {α : Type} (l1 l2 : List α) (a b : α)
    (h : l1 ++ [a] = l2 ++ [b]) : l1 = l2 ∧ a = b := by
  have := List.append_inj' h rfl
  exact ⟨this.1, by simpa using this.2⟩

theorem setAndKept_snoc_set {Time : Type} (ops : List (Op Time)) (n : GoString)
    (r : volumeMetadata Time) (x : GoString) :
    setAndKept (ops ++ [Op.set n r]) x ↔ x = n ∨ setAndKept ops x := by
  constructor
  · rintro ⟨pre, meta, post, h, hp⟩
    rcases List.eq_nil_or_concat post with rfl | ⟨post1, z, rfl⟩
    · obtain ⟨_, h2⟩ := append_singleton_eq _ _ _ _ h
      injection h2 with h2 _
      exact Or.inl h2.symm
    · have h1 : ops ++ [Op.set n r] = (pre ++ Op.set x meta :: post1) ++ [z] := by
        rw [h]; simp
      obtain ⟨h2, _⟩ := append_singleton_eq _ _ _ _ h1
      exact Or.inr ⟨pre, meta, post1, h2, fun op hop => hp op (by simp [hop])⟩
  · rintro (rfl | ⟨pre, meta, post, h, hp⟩)
    · exact ⟨ops, r, [], rfl, by simp⟩
    · refine ⟨pre, meta, post ++ [Op.set n r], by rw [h]; simp, ?_⟩
      intro op hop
      simp only [List.mem_append, List.mem_singleton] at hop
      rcases hop with hop | rfl
      · exact hp op hop
      · simp

theorem setAndKept_snoc_delete {Time : Type} (ops : List (Op Time)) (n : GoString)
    (x : GoString) :
    setAndKept (ops ++ [Op.delete n]) x ↔ x ≠ n ∧ setAndKept ops x := by
  constructor
  · rintro ⟨pre, meta, post, h, hp⟩
    rcases List.eq_nil_or_concat post with rfl | ⟨post1, z, rfl⟩
    · obtain ⟨_, h2⟩ := append_singleton_eq _ _ _ _ h
      simp at h2
    · have h1 : ops ++ [Op.delete n] = (pre ++ Op.set x meta :: post1) ++ [z] := by
        rw [h]; simp
      obtain ⟨h2, h3⟩ := append_singleton_eq _ _ _ _ h1
      refine ⟨?_, pre, meta, post1, h2, fun op hop => hp op (by simp [hop])⟩
      rintro rfl
      exact hp z (by simp) h3.symm
  · rintro ⟨hne, pre, meta, post, h, hp⟩
    refine ⟨pre, meta, post ++ [Op.delete n], by rw [h]; simp, ?_⟩
    intro op hop
    simp only [List.mem_append, List.mem_singleton] at hop
    rcases hop with hop | rfl
    · exact hp op hop
    · intro e
      injection e with e
      exact hne e.symm

theorem isFileAt_congr (fs fs1 : FS) (p : List GoString) (h : fs1.kind p = fs.kind p) :
    fs1.isFileAt p = fs.isFileAt p := by
  unfold FS.isFileAt
  rw [h]

theorem snoc_ne_self (b : List GoString) (n : GoString) : b ≠ b ++ [n] := by
  intro h
  have := congrArg List.length h
  simp at this

/-- The state of the base directory after a sequence of successful `Set` and
`Delete` calls with plain names, from an empty base directory: the directory
is there, its entries have plain names, and its regular files are the names
set and not deleted afterwards. -/
theorem runOps_invariant {Time : Type} (L : TimeLib Time) (m : metadataDriver)
    (fs : FS) (b : List GoString) (hb : resolve m.metaDir = some b)
    (hdir : fs.kind b = some Entry.dir)
    (hempty : ∀ x, lookupEnt fs.ents (b ++ [x]) = none)
    (ops : List (Op Time)) (hnames : ∀ op ∈ ops, plainName op.name) :
    ∀ fs1, runOps L m ops fs = some fs1 →
      fs1.kind b = some Entry.dir ∧
      (∀ e ∈ fs1.ents, ∀ x, e.1 = b ++ [x] → plainName x) ∧
      (∀ x, fs1.isFileAt (b ++ [x]) = true ↔ setAndKept ops x) := by
  induction ops using List.reverseRecOn with
  | nil =>
    intro fs1 h
    simp only [runOps, Option.some.injEq] at h
    subst h
    refine ⟨hdir, ?_, ?_⟩
    · intro e he x hx
      have := (lookupEnt_eq_none fs.ents (b ++ [x])).1 (hempty x) e he
      exact absurd hx this
    · intro x
      have : fs.isFileAt (b ++ [x]) = false := by
        simp [FS.isFileAt, FS.kind, hempty x]
      simp [this, setAndKept_nil]
  | append_singleton ops op ih =>
    intro fs2 h
    rw [runOps_append] at h
    cases h1 : runOps L m ops fs with
    | none => simp [h1] at h
    | some fs1 =>
      simp only [h1, Option.some_bind] at h
      obtain ⟨ihd, ihp, ihf⟩ := ih (fun o ho => hnames o (by simp [ho])) fs1 h1
      have hn : plainName op.name := hnames op (by simp)
      by_cases herr : (op.run L m fs1).1 = none
      · rw [if_pos herr] at h
        injection h with h
        have hres := resolve_path_plain m b op.name hb hn
        cases op with
        | set n r =>
          simp only [Op.run, Op.name] at herr h hres hn
          rcases Set_cases L m n r fs1 with ⟨h2, _⟩ | ⟨bytes, fs3, _, hw, hs⟩
          · exact absurd herr h2
          · rw [hs] at h
            simp only at h
            subst h
            obtain ⟨p, hp, _, _, _, hents⟩ := WriteFile_some fs1 fs3 _ bytes hw
            rw [hres] at hp
            injection hp with hp
            subst hp
            have hkind := WriteFile_kind fs1 fs3 _ bytes (b ++ [n]) hw hres
            refine ⟨?_, ?_, ?_⟩
            · rw [hkind, if_neg (snoc_ne_self b n), ihd]
            · intro e he x hx
              rw [hents] at he
              simp only [List.mem_cons] at he
              rcases he with rfl | he
              · simp only [List.append_cancel_left_eq, List.cons.injEq, and_true] at hx
                rw [← hx]; exact hn
              · exact ihp e (List.mem_of_mem_filter he) x hx
            · intro x
              rw [setAndKept_snoc_set, ← ihf x]
              by_cases hx : x = n
              · subst hx
                simp [FS.isFileAt, hkind]
              · have : b ++ [x] ≠ b ++ [n] := by simpa using hx
                rw [isFileAt_congr fs1 fs3 _ (by rw [hkind, if_neg this])]
                simp [hx]
        | delete n =>
          simp only [Op.run, Op.name] at herr h hres hn
          have hst : (m.Delete n fs1).2 = (RemoveAll fs1 (m.path n)).1 := by
            unfold metadataDriver.Delete
            cases h2 : (RemoveAll fs1 (m.path n)).2 <;> simp [h2]
          have hok : (RemoveAll fs1 (m.path n)).2 = false := by
            unfold metadataDriver.Delete at herr
            cases h2 : (RemoveAll fs1 (m.path n)).2 with
            | false => rfl
            | true => simp [h2] at herr
          rw [hst] at h
          subst h
          have hne : m.path n ≠ [] := (resolve_some_ne _ _ hres).1
          rcases RemoveAll_cases fs1 (m.path n) with ⟨_, h2⟩ | ⟨p, hp, _, _, h4, _⟩
          · exact absurd (h2 hok) hne
          · rw [hres] at hp
            injection hp with hp
            subst hp
            have hkind : ∀ q, (RemoveAll fs1 (m.path n)).1.kind q
                = if q = [] then some Entry.dir
                  else if (b ++ [n]).isPrefixOf q then none else fs1.kind q := by
              intro q; rw [h4, kind_filter_below]
            refine ⟨?_, ?_, ?_⟩
            · rw [hkind, isPrefixOf_snoc_self]
              by_cases h0 : b = []
              · simp [h0]
              · simp [h0, ihd]
            · intro e he x hx
              rw [h4] at he
              exact ihp e (List.mem_of_mem_filter he) x hx
            · intro x
              rw [setAndKept_snoc_delete, ← ihf x]
              unfold FS.isFileAt
              rw [hkind, isPrefixOf_snoc]
              by_cases hx : n = x
              · subst hx; simp
              · have hx' : x ≠ n := fun e => hx e.symm
                simp [hx, hx']
      · rw [if_neg herr] at h
        exact absurd h (by simp)

theorem Lstat_dir_iff (fs : FS) (path : GoString) :
    Lstat fs path = some Entry.dir ↔ ∃ b, resolve path = some b ∧ fs.kind b = some Entry.dir := by
  unfold Lstat
  cases resolve path with
  | none => simp
  | some p => simp

/-- C7, as amended. From a store whose base directory exists and is empty,
after any sequence of `Set` and `Delete` calls that all return without error
and whose names are plain file names, `List` returns without error a list
whose elements are exactly the names that were set and not deleted
afterwards, each once. -/
theorem List_after_ops {Time : Type} (L : TimeLib Time) (m : metadataDriver) (fs fs1 : FS)
    (ops : List (Op Time)) (hdir : Lstat fs m.metaDir = some Entry.dir)
    (hempty : readDirNames fs m.metaDir = [])
    (hnames : ∀ op ∈ ops, plainName op.name)
    (hrun : runOps L m ops fs = some fs1) :
    ∃ l, m.List fs1 = .ok l ∧ l.Nodup ∧ ∀ x, x ∈ l ↔ setAndKept ops x := by
  obtain ⟨b, hb, hk⟩ := (Lstat_dir_iff fs _).1 hdir
  have hnone : ∀ x, lookupEnt fs.ents (b ++ [x]) = none := by
    intro x
    by_contra hx
    have := (mem_readDirNames fs _ b hb x).2 hx
    rw [hempty] at this
    simp at this
  obtain ⟨h1, h2, h3⟩ := runOps_invariant L m fs b hb hk hnone ops hnames fs1 hrun
  obtain ⟨l, hl, hnd, hmem⟩ := List_files m fs1 b hb h1 h2
  exact ⟨l, hl, hnd, fun x => (hmem x).trans (h3 x)⟩

theorem List_after_ops_witness :
    Lstat exampleFS exampleDriver.metaDir = some Entry.dir ∧
    readDirNames exampleFS exampleDriver.metaDir = [] ∧
    exampleDriver.List exampleFS = .ok [] ∧
    (runOps dayTime exampleDriver
        [Op.set "a".toList exampleRecord, Op.set "b".toList otherRecord] exampleFS).map
      exampleDriver.List = some (.ok ["a".toList, "b".toList]) ∧
    (runOps dayTime exampleDriver
        [Op.set "a".toList exampleRecord, Op.set "b".toList otherRecord,
          Op.delete "a".toList] exampleFS).map
      exampleDriver.List = some (.ok ["b".toList]) ∧
    ∃ l, exampleDriver.List ((runOps dayTime exampleDriver
        [Op.set "a".toList exampleRecord, Op.set "b".toList otherRecord,
          Op.delete "a".toList] exampleFS).getD exampleFS) = .ok l ∧ l.Nodup ∧
      ∀ x, x ∈ l ↔ setAndKept
        [Op.set "a".toList exampleRecord, Op.set "b".toList otherRecord,
          Op.delete "a".toList] x :=
  ⟨by decide, by decide, by rfl, by rfl, by rfl,
   List_after_ops dayTime exampleDriver exampleFS _ _ (by decide) (by decide)
     (by
        intro op hop
        simp only [List.mem_cons, List.mem_singleton, List.not_mem_nil, or_false] at hop
        rcases hop with rfl | rfl | rfl <;> decide)
     (by rfl)⟩

/-- C7 as stated fails for names that are not plain: `Delete("")` returns no
error and removes the base directory, after which `List` returns an error;
and `Set("./a", r)` returns no error, after which `List` returns `a`, which
is not the name that was set. -/
theorem List_after_ops_counterexample :
    Lstat exampleFS exampleDriver.metaDir = some Entry.dir ∧
    readDirNames exampleFS exampleDriver.metaDir = [] ∧
    (runOps dayTime exampleDriver [Op.delete "".toList] exampleFS).map exampleDriver.List
      = some (.error Error.cannotList) ∧
    (runOps dayTime exampleDriver [Op.set "./a".toList exampleRecord] exampleFS).map
      exampleDriver.List = some (.ok ["a".toList]) ∧
    setAndKept [Op.set "./a".toList exampleRecord] "./a".toList ∧
    "./a".toList ∉ ["a".toList] :=
  ⟨by decide, by decide, by rfl, by rfl, ⟨[], exampleRecord, [], rfl, by simp⟩, by decide⟩

/-- C9 as stated fails for the different names `a` and `./a`, whose paths are
the same: `Set("a", r)` changes what `Get("./a")` returns, and `Delete("./a")`
changes what `Get("a")` returns. -/
theorem frame_counterexample :
    "a".toList ≠ "./a".toList ∧
    exampleDriver.Get dayTime "./a".toList exampleFS = .error Error.cannotRead ∧
    exampleDriver.Get dayTime "./a".toList
        (exampleDriver.Set dayTime "a".toList exampleRecord exampleFS).2
      = .ok exampleRecord ∧
    exampleDriver.Get dayTime "a".toList
        (exampleDriver.Set dayTime "a".toList exampleRecord exampleFS).2
      = .ok exampleRecord ∧
    exampleDriver.Get dayTime "a".toList
        (exampleDriver.Delete "./a".toList
          (exampleDriver.Set dayTime "a".toList exampleRecord exampleFS).2).2
      = .error Error.cannotRead :=
  ⟨by decide, by rfl, by rfl, by rfl, by rfl⟩

end Metadata
